import Mathlib

/-!
# Verification of the LLM-output JSON repair parser

This file is a shallow embedding, in Lean 4, of the repair parser implemented in
`json_parser.py` (entry point `from_str`).  All program text is modelled as
`List Char`.  Python's fallible `json.loads` is modelled as an `Option`-returning
recursive-descent decoder (`json_loads`), faithful to the strict JSON grammar
accepted by Python's `json` module (the `NaN`/`Infinity` extension constants are
omitted; the `\uXXXX` escapes handle surrogate pairs, lone surrogates are
rejected since Lean's `Char` is a unicode scalar).  The regex passes of
`_fix_malformed_json` are modelled by explicit left-to-right scanners that
reproduce the exact matching semantics (lookbehind, lazy/greedy groups,
lookahead, non-overlapping substitution) of each pattern in the source.
Recursions that are not structural carry an explicit fuel argument, always
called with fuel exceeding the input length, so every definition is executable
by kernel reduction.

Python `dict` objects are modelled as association lists built by
position-preserving last-write-wins insertion (`upsert`), matching `dict`
semantics for duplicate keys.  JSON numbers are modelled exactly, keeping the
scanned literal's components (sign, integer digits, fraction digits, exponent),
an exact-precision stand-in for Python's int/float values; serialisation
(`dumpsV`, modelling `json.dumps` with its default separators, non-ASCII kept
raw) regurgitates the stored literal.
-/

set_option maxHeartbeats 4000000
set_option maxRecDepth 20000

namespace RepairParser

/-! ## Python string helpers -/

/-- ASCII whitespace as recognised by Python's `str.strip` and the regex
class `\s`: space, tab, newline, carriage return, vertical tab, form feed. -/
def isPyWs (c : Char) : Bool :=
  c == ' ' || c == '\t' || c == '\n' || c == '\r' || c == '\x0b' || c == '\x0c'

/-- Whitespace skipped by Python's `json` decoder (only space, tab, newline,
carriage return). -/
def isJsonWs (c : Char) : Bool :=
  c == ' ' || c == '\t' || c == '\n' || c == '\r'

/-- Python `str.strip()` restricted to ASCII whitespace. -/
def pyStrip (l : List Char) : List Char :=
  ((l.dropWhile isPyWs).reverse.dropWhile isPyWs).reverse

/-- Does `p` occur as a prefix of `l`? -/
def startsWithList : List Char → List Char → Bool
  | [], _ => true
  | _ :: _, [] => false
  | p :: ps, c :: cs => p == c && startsWithList ps cs

/-- Python `str.replace(p, r)`: replace all non-overlapping occurrences of `p`
by `r`, scanning left to right (fuelled; callers pass `l.length + 1`). -/
def listReplaceF : Nat → List Char → List Char → List Char → List Char
  | 0, _, _, l => l
  | _ + 1, _, _, [] => []
  | f + 1, p, r, c :: cs =>
    if startsWithList p (c :: cs) then r ++ listReplaceF f p r ((c :: cs).drop p.length)
    else c :: listReplaceF f p r cs

def listReplace (p r l : List Char) : List Char :=
  listReplaceF (l.length + 1) p r l

/-! ## The JSON value model -/

/-- A JSON number literal, kept exactly as scanned: sign, integer-part digits,
fraction digits (`[]` when there is no fraction part) and optional exponent
(sign: `none` absent, `some false` is `+`, `some true` is `-`; then digits). -/
structure JsonNumber where
  neg : Bool
  ip : List Char
  fp : List Char
  ep : Option (Option Bool × List Char)
  deriving Repr, DecidableEq

/-- The decoded JSON value union (spec section 3, "Output value"). -/
inductive JsonValue where
  | null : JsonValue
  | bool (b : Bool) : JsonValue
  | num (n : JsonNumber) : JsonValue
  | str (s : List Char) : JsonValue
  | arr (xs : List JsonValue) : JsonValue
  | obj (ms : List (List Char × JsonValue)) : JsonValue
  deriving Repr

/-- Python `dict.__setitem__` on an insertion-ordered dict: an existing key
keeps its position and gets the new value, a new key is appended. -/
def upsert (ms : List (List Char × JsonValue)) (k : List Char) (v : JsonValue) :
    List (List Char × JsonValue) :=
  if ms.any (fun kv => kv.1 == k) then ms.map (fun kv => if kv.1 == k then (k, v) else kv)
  else ms ++ [(k, v)]

/-! ## The decoder: model of Python `json.loads` -/

def hexVal (c : Char) : Option Nat :=
  if c.isDigit then some (c.toNat - '0'.toNat)
  else if 'a' ≤ c ∧ c ≤ 'f' then some (c.toNat - 'a'.toNat + 10)
  else if 'A' ≤ c ∧ c ≤ 'F' then some (c.toNat - 'A'.toNat + 10)
  else none

/-- The single-character string escapes accepted by strict JSON. -/
def escChar (e : Char) : Option Char :=
  if e = '"' then some '"'
  else if e = '\\' then some '\\'
  else if e = '/' then some '/'
  else if e = 'b' then some '\x08'
  else if e = 'f' then some '\x0c'
  else if e = 'n' then some '\n'
  else if e = 'r' then some '\r'
  else if e = 't' then some '\t'
  else none

def hex4 (a b c d : Char) : Option Nat := do
  let x ← hexVal a; let y ← hexVal b; let z ← hexVal c; let w ← hexVal d
  pure (((x * 16 + y) * 16 + z) * 16 + w)

mutual

/-- Scan a JSON string body (the opening `"` already consumed); returns the
decoded characters and the input remaining after the closing `"`.  Raw control
characters are rejected (Python's strict mode), `\uXXXX` escapes are decoded
with surrogate-pair combination. -/
def parseStr : List Char → Option (List Char × List Char)
  | [] => none
  | c :: r =>
    if c = '"' then some ([], r)
    else if c = '\\' then parseEsc r
    else if c.toNat < 32 then none
    else (parseStr r).map fun p => (c :: p.1, p.2)

/-- Decode one backslash escape (the `\` already consumed). -/
def parseEsc : List Char → Option (List Char × List Char)
  | 'u' :: a :: b :: c2 :: d :: r3 =>
    (match hex4 a b c2 d with
     | none => none
     | some n =>
       if 0xD800 ≤ n ∧ n ≤ 0xDBFF then parseLowSurrogate n r3
       else if 0xDC00 ≤ n ∧ n ≤ 0xDFFF then none
       else (parseStr r3).map fun p => (Char.ofNat n :: p.1, p.2))
  | e :: r2 =>
    (match escChar e with
     | some ec => (parseStr r2).map fun p => (ec :: p.1, p.2)
     | none => none)
  | [] => none

/-- After a high surrogate `\uXXXX`, the matching low surrogate must follow. -/
def parseLowSurrogate (n : Nat) : List Char → Option (List Char × List Char)
  | '\\' :: 'u' :: a2 :: b2 :: c3 :: d2 :: r5 =>
    (match hex4 a2 b2 c3 d2 with
     | none => none
     | some m =>
       if 0xDC00 ≤ m ∧ m ≤ 0xDFFF then
         (parseStr r5).map fun p =>
           (Char.ofNat (0x10000 + (n - 0xD800) * 0x400 + (m - 0xDC00)) :: p.1, p.2)
       else none)
  | _ => none

end

/-- Scan the mandatory integer part `0|[1-9]\d*` of a JSON number. -/
def scanIntPart (cs1 : List Char) : Option (List Char × List Char) :=
  match cs1.head? with
  | none => none
  | some c =>
    if c.isDigit then
      if c = '0' then some ((['0'] : List Char), cs1.tail)
      else some (cs1.takeWhile Char.isDigit, cs1.dropWhile Char.isDigit)
    else none

/-- Scan the optional fraction `(\.\d+)?`; an unmatched `.` is not consumed. -/
def scanFrac (r : List Char) : List Char × List Char :=
  if r.head? = some '.' then
    (let ds := r.tail.takeWhile Char.isDigit
     if ds.isEmpty then ([], r) else (ds, r.tail.dropWhile Char.isDigit))
  else ([], r)

/-- Scan the optional exponent `([eE][+-]?\d+)?`; an incomplete exponent is not
consumed. -/
def scanExp (r : List Char) : Option (Option Bool × List Char) × List Char :=
  if r.head? = some 'e' ∨ r.head? = some 'E' then
    (let rr := r.tail
     let sg : Option Bool :=
       if rr.head? = some '+' then some false
       else if rr.head? = some '-' then some true
       else none
     let rr2 := if rr.head? = some '+' ∨ rr.head? = some '-' then rr.tail else rr
     let ds := rr2.takeWhile Char.isDigit
     if ds.isEmpty then ((none : Option (Option Bool × List Char)), r)
     else (some (sg, ds), rr2.dropWhile Char.isDigit))
  else (none, r)

/-- Scan a JSON number per the grammar `-?(0|[1-9]\d*)(\.\d+)?([eE][+-]?\d+)?`,
maximal-munch exactly like the `NUMBER_RE` used by Python's `json` scanner. -/
def parseNum (cs : List Char) : Option (JsonValue × List Char) :=
  match scanIntPart (if cs.head? = some '-' then cs.tail else cs) with
  | none => none
  | some (ip, r1) =>
    some (.num ⟨cs.head? = some '-', ip, (scanFrac r1).1, (scanExp (scanFrac r1).2).1⟩,
      (scanExp (scanFrac r1).2).2)

mutual

/-- Scan one JSON value (fuelled recursive descent; model of the scanner driving
`json.loads`).  Leading whitespace is not skipped here — callers skip it. -/
def parseVal : Nat → List Char → Option (JsonValue × List Char)
  | 0, _ => none
  | f + 1, cs =>
    match cs with
    | [] => none
    | c :: r =>
      if c = '\x7b' then
        (if (r.dropWhile isJsonWs).head? = some '\x7d' then
          some (.obj [], (r.dropWhile isJsonWs).tail)
        else parseMembers f (r.dropWhile isJsonWs) [])
      else if c = '[' then
        (if (r.dropWhile isJsonWs).head? = some ']' then
          some (.arr [], (r.dropWhile isJsonWs).tail)
        else parseElems f (r.dropWhile isJsonWs) [])
      else if c = '"' then (parseStr r).map fun p => (.str p.1, p.2)
      else if startsWithList "true".data (c :: r) then some (.bool true, (c :: r).drop 4)
      else if startsWithList "false".data (c :: r) then some (.bool false, (c :: r).drop 5)
      else if startsWithList "null".data (c :: r) then some (.null, (c :: r).drop 4)
      else parseNum (c :: r)

/-- Scan the members of a JSON object, starting at a property name, building
the Python dict via `upsert`. -/
def parseMembers : Nat → List Char → List (List Char × JsonValue) →
    Option (JsonValue × List Char)
  | 0, _, _ => none
  | f + 1, cs, acc =>
    match cs with
    | [] => none
    | c :: r =>
      if c = '"' then
        match parseStr r with
        | none => none
        | some (k, r1) =>
          match r1.dropWhile isJsonWs with
          | [] => none
          | c2 :: r2 =>
            if c2 = ':' then
              match parseVal f (r2.dropWhile isJsonWs) with
              | none => none
              | some (v, r3) =>
                match r3.dropWhile isJsonWs with
                | [] => none
                | c3 :: r4 =>
                  if c3 = ',' then parseMembers f (r4.dropWhile isJsonWs) (upsert acc k v)
                  else if c3 = '\x7d' then some (.obj (upsert acc k v), r4)
                  else none
            else none
      else none

/-- Scan the elements of a JSON array, starting at a value. -/
def parseElems : Nat → List Char → List JsonValue → Option (JsonValue × List Char)
  | 0, _, _ => none
  | f + 1, cs, acc =>
    match parseVal f cs with
    | none => none
    | some (v, r) =>
      match r.dropWhile isJsonWs with
      | [] => none
      | c :: r2 =>
        if c = ',' then parseElems f (r2.dropWhile isJsonWs) (acc ++ [v])
        else if c = ']' then some (.arr (acc ++ [v]), r2)
        else none

end

/-- Model of Python `json.loads`: decode one value, allowing surrounding
whitespace, and fail on trailing data (or any scan error). -/
def json_loads (cs : List Char) : Option JsonValue :=
  match parseVal (cs.length + 1) (cs.dropWhile isJsonWs) with
  | none => none
  | some (v, r) => if r.dropWhile isJsonWs = [] then some v else none

/-! ## The encoder: model of Python `json.dumps` (default separators) -/

def hexDigit (n : Nat) : Char :=
  if n < 10 then Char.ofNat ('0'.toNat + n) else Char.ofNat ('a'.toNat + (n - 10))

/-- `json.dumps` escaping of one string character (non-ASCII characters kept
raw, i.e. the `ensure_ascii=False` canonical form). -/
def escChar1 (c : Char) : List Char :=
  if c = '"' then ['\\', '"']
  else if c = '\\' then ['\\', '\\']
  else if c = '\n' then ['\\', 'n']
  else if c = '\t' then ['\\', 't']
  else if c = '\r' then ['\\', 'r']
  else if c = '\x08' then ['\\', 'b']
  else if c = '\x0c' then ['\\', 'f']
  else if c.toNat < 32 then ['\\', 'u', '0', '0', hexDigit (c.toNat / 16), hexDigit (c.toNat % 16)]
  else [c]

def escStr : List Char → List Char
  | [] => []
  | c :: cs => escChar1 c ++ escStr cs

/-- The serialised exponent sign. -/
def expSign : Option Bool → List Char
  | none => []
  | some false => ['+']
  | some true => ['-']

/-- The serialised fraction part. -/
def fpChars (fp : List Char) : List Char :=
  if fp.isEmpty then [] else '.' :: fp

/-- The serialised exponent part. -/
def epChars : Option (Option Bool × List Char) → List Char
  | none => []
  | some (sg, ds) => 'e' :: (expSign sg ++ ds)

/-- Serialise a number literal back to text. -/
def numLit (n : JsonNumber) : List Char :=
  (if n.neg then ['-'] else []) ++ n.ip ++ fpChars n.fp ++ epChars n.ep

mutual

/-- Model of `json.dumps` with the default separators `", "` and `": "`. -/
def dumpsV : JsonValue → List Char
  | .null => "null".data
  | .bool true => "true".data
  | .bool false => "false".data
  | .num n => numLit n
  | .str s => '"' :: escStr s ++ ['"']
  | .arr [] => "[]".data
  | .arr (x :: xs) => '[' :: dumpsV x ++ dumpsArrTail xs ++ [']']
  | .obj [] => "\x7b\x7d".data
  | .obj ((k, v) :: ms) =>
      '\x7b' :: ('"' :: escStr k ++ '"' :: ':' :: ' ' :: dumpsV v) ++ dumpsObjTail ms ++ ['\x7d']

def dumpsArrTail : List JsonValue → List Char
  | [] => []
  | x :: xs => ',' :: ' ' :: dumpsV x ++ dumpsArrTail xs

def dumpsObjTail : List (List Char × JsonValue) → List Char
  | [] => []
  | (k, v) :: ms =>
      ',' :: ' ' :: ('"' :: escStr k ++ '"' :: ':' :: ' ' :: dumpsV v) ++ dumpsObjTail ms

end

/-! ## The Grammar Repairer: model of `_fix_malformed_json`

Each regex pass of the Python source is modelled by a left-to-right scanner
with the exact semantics of `re.sub` for that pattern: try a match at each
position, on success emit the replacement and resume after the matched span,
on failure emit the character and advance by one. -/

/-- Pass 1, `re.sub(r"(?<!:)//.*?$", "", text, flags=re.MULTILINE)`: drop from
a `//` not immediately preceded by `:` up to (excluding) the next newline.
`prev` is the character of the original text just before the current
position, for the lookbehind. -/
def fixLineComments : Nat → Option Char → List Char → List Char
  | 0, _, cs => cs
  | f + 1, prev, cs =>
    match cs with
    | '/' :: '/' :: r =>
      if prev = some ':' then '/' :: fixLineComments f (some '/') ('/' :: r)
      else fixLineComments f (some '/') (r.dropWhile fun c => !(c == '\n'))
    | c :: r => c :: fixLineComments f (some c) r
    | [] => []

/-- Remainder after the earliest `*/`, if any. -/
def findBlockEnd : List Char → Option (List Char)
  | '*' :: '/' :: r => some r
  | _ :: r => findBlockEnd r
  | [] => none

/-- Pass 1b, `re.sub(r"/\*.*?\*/", "", text, flags=re.DOTALL)`: drop each
lazily-matched block comment. -/
def fixBlockComments : Nat → List Char → List Char
  | 0, cs => cs
  | f + 1, cs =>
    match cs with
    | '/' :: '*' :: r =>
      match findBlockEnd r with
      | some r2 => fixBlockComments f r2
      | none => '/' :: fixBlockComments f ('*' :: r)
    | c :: r => c :: fixBlockComments f r
    | [] => []

/-- Pass 2, `re.sub(r"(?<=[:\s\[,])\.(\d+)", r"0.\1", text)`: insert a `0`
before a `.` that is preceded by `:`, whitespace, `[` or `,` and followed by
digits; the digits are part of the match (scanning resumes after them). -/
def fixDotNumbers : Nat → Option Char → List Char → List Char
  | 0, _, cs => cs
  | f + 1, prev, cs =>
    match cs with
    | '.' :: c :: r =>
      if c.isDigit && (match prev with
          | some p => p == ':' || isPyWs p || p == '[' || p == ','
          | none => false) then
        '0' :: '.' :: c :: r.takeWhile Char.isDigit ++
          fixDotNumbers f (some c) (r.dropWhile Char.isDigit)
      else '.' :: fixDotNumbers f (some '.') (c :: r)
    | c :: r => c :: fixDotNumbers f (some c) r
    | [] => []

/-- Scan the body of a single-quoted literal per the regex
`'([^'\\]*(?:\\.[^'\\]*)*)'` (the opening `'` already consumed): chunks of
characters other than `'` and `\`, and backslash-escapes `\c` where `c` is any
character except newline.  Returns the raw group 1 and the remainder after the
closing quote. -/
def scanSingleQuoted : List Char → Option (List Char × List Char)
  | [] => none
  | '\x27' :: r => some ([], r)
  | '\\' :: c2 :: r =>
    if c2 = '\n' then none
    else (scanSingleQuoted r).map fun p => ('\\' :: c2 :: p.1, p.2)
  | c :: r =>
    if c = '\\' then none
    else (scanSingleQuoted r).map fun p => (c :: p.1, p.2)

/-- `inner.replace('"', '\\"')` as used by `_convert_single` and
`_quote_value`. -/
def escDq : List Char → List Char
  | [] => []
  | c :: cs => if c = '"' then '\\' :: '"' :: escDq cs else c :: escDq cs

/-- Pass 3, single-quoted string literals to double-quoted ones
(`_convert_single`): the matched literal's body has its double quotes escaped
and is wrapped in `"`. -/
def fixSingleQuotes : Nat → List Char → List Char
  | 0, cs => cs
  | f + 1, cs =>
    match cs with
    | '\x27' :: r =>
      match scanSingleQuoted r with
      | some (inner, r2) => '"' :: escDq inner ++ '"' :: fixSingleQuotes f r2
      | none => '\x27' :: fixSingleQuotes f r
    | c :: r => c :: fixSingleQuotes f r
    | [] => []

def isIdentStart (c : Char) : Bool := c.isAlpha || c == '_'

def isIdentChar (c : Char) : Bool := c.isAlphanum || c == '_'

/-- Pass 4, `key_pattern = ([{,]\s*)([A-Za-z_][A-Za-z0-9_]*)(\s*:)` replaced by
`\1"\2"\3`: quote an unquoted identifier key. -/
def quoteKeys : Nat → List Char → List Char
  | 0, cs => cs
  | f + 1, cs =>
    match cs with
    | c :: r =>
      if c = '\x7b' ∨ c = ',' then
        let ws1 := r.takeWhile isPyWs
        let r1 := r.dropWhile isPyWs
        match r1 with
        | d :: _ =>
          if isIdentStart d then
            let ident := r1.takeWhile isIdentChar
            let r2 := r1.dropWhile isIdentChar
            let ws2 := r2.takeWhile isPyWs
            match r2.dropWhile isPyWs with
            | ':' :: r4 => c :: ws1 ++ '"' :: ident ++ '"' :: ws2 ++ ':' :: quoteKeys f r4
            | _ => c :: quoteKeys f r
          else c :: quoteKeys f r
        | [] => c :: quoteKeys f r
      else c :: quoteKeys f r
    | [] => []

/-- The characters ending a value span in `val_pattern`: `,`, `}`, `]`. -/
def isClos (c : Char) : Bool := c == ',' || c == '\x7d' || c == ']'

/-- The lookahead `(?=\s*[,\}\]]|$)` of `val_pattern`, evaluated on the text
remaining after the candidate value (`$` without MULTILINE: end of input, or
just before a final newline). -/
def vLookahead (xs : List Char) : Bool :=
  (match xs.dropWhile isPyWs with
   | c :: _ => isClos c
   | [] => false) || xs.isEmpty || xs == ['\n']

/-- The lazy group `([^,\}\]]+?)`: grow the value one character at a time until
the lookahead holds. -/
def lazyValue : List Char → List Char × List Char
  | [] => ([], [])
  | c :: rest =>
    if vLookahead rest then ([c], rest)
    else
      let p := lazyValue rest
      (c :: p.1, p.2)

/-- The full match `-?\d+(\.\d+)?([eE][+\-]?\d+)?` used by `_quote_value` to
recognise numbers. -/
def isNumberTok (v : List Char) : Bool :=
  let v1 := match v with
    | '-' :: r => r
    | _ => v
  let d1 := v1.takeWhile Char.isDigit
  let r1 := v1.dropWhile Char.isDigit
  if d1.isEmpty then false
  else
    let r2 : Option (List Char) :=
      match r1 with
      | '.' :: rr =>
        let d2 := rr.takeWhile Char.isDigit
        if d2.isEmpty then none else some (rr.dropWhile Char.isDigit)
      | _ => some r1
    match r2 with
    | none => false
    | some [] => true
    | some (e :: rr) =>
      if e = 'e' ∨ e = 'E' then
        let rr2 := match rr with
          | '+' :: t => t
          | '-' :: t => t
          | _ => rr
        let d3 := rr2.takeWhile Char.isDigit
        !d3.isEmpty && (rr2.dropWhile Char.isDigit).isEmpty
      else false

/-- The replacement function `_quote_value` applied to group 2. -/
def quote_value (g2 : List Char) : List Char :=
  let value := pyStrip g2
  match value with
  | c :: _ =>
    if c = '"' ∨ c = '\x27' ∨ c = '\x7b' ∨ c = '[' then g2
    else if value = "TRUE".data ∨ value = "FALSE".data then '"' :: value ++ ['"']
    else if value = "True".data then "true".data
    else if value = "False".data then "false".data
    else if value = "None".data then "null".data
    else if value = "true".data ∨ value = "false".data ∨ value = "null".data then value
    else if isNumberTok value then value
    else '"' :: escDq value ++ ['"']
  | [] => ['"', '"']

/-- Pass 5, `val_pattern = (:\s*)([^,\}\]]+?)(?=\s*[,\}\]]|$)` substituted via
`_quote_value`.  When the greedy `\s*` leaves no character available for the
mandatory value, the engine backtracks one whitespace character into the
value. -/
def quoteValues : Nat → List Char → List Char
  | 0, cs => cs
  | f + 1, cs =>
    match cs with
    | ':' :: rest =>
      let ws := rest.takeWhile isPyWs
      let after := rest.dropWhile isPyWs
      match after with
      | c :: _ =>
        if isClos c then
          if ws.isEmpty then ':' :: quoteValues f rest
          else ':' :: ws.dropLast ++ quote_value [ws.getLastD ' '] ++ quoteValues f after
        else
          let p := lazyValue after
          ':' :: ws ++ quote_value p.1 ++ quoteValues f p.2
      | [] =>
        if ws.isEmpty then ':' :: quoteValues f rest
        else ':' :: ws.dropLast ++ quote_value [ws.getLastD ' ']
    | c :: r => c :: quoteValues f r
    | [] => []

/-- Pass 6a, `re.sub(r",\s*([\}\]])", r"\1", text)`: drop a comma (and the
whitespace) before a closing bracket. -/
def dropCommaBeforeClose : Nat → List Char → List Char
  | 0, cs => cs
  | f + 1, cs =>
    match cs with
    | ',' :: r =>
      match r.dropWhile isPyWs with
      | c :: r2 =>
        if c = '\x7d' ∨ c = ']' then c :: dropCommaBeforeClose f r2
        else ',' :: dropCommaBeforeClose f r
      | [] => ',' :: dropCommaBeforeClose f r
    | c :: r => c :: dropCommaBeforeClose f r
    | [] => []

/-- Pass 6b, `re.sub(r"([\{\[])\s*,\s*", r"\1", text)`: drop one comma (and
surrounding whitespace) after an opening bracket. -/
def dropCommaAfterOpen : Nat → List Char → List Char
  | 0, cs => cs
  | f + 1, cs =>
    match cs with
    | c :: r =>
      if c = '\x7b' ∨ c = '[' then
        match r.dropWhile isPyWs with
        | ',' :: r2 => c :: dropCommaAfterOpen f (r2.dropWhile isPyWs)
        | _ => c :: dropCommaAfterOpen f r
      else c :: dropCommaAfterOpen f r
    | [] => []

/-- One step of pass 7's balancing loop: push the expected closer for an
opener; pop a closer only when it equals the expected closer on top. -/
def scanStep (st : List Char) (c : Char) : List Char :=
  if c = '\x7b' then '\x7d' :: st
  else if c = '[' then ']' :: st
  else if c = '\x7d' ∨ c = ']' then
    match st with
    | t :: st2 => if t = c then st2 else st
    | [] => st
  else st

/-- Pass 7's scanning loop: the string-oblivious LIFO stack of expected
closers (top at the head; Python appends at the end and joins `reversed`,
which is this list read head to tail). -/
def scanStack (cs : List Char) (st : List Char) : List Char :=
  cs.foldl scanStep st

/-- `_fix_malformed_json`: the seven repair passes in source order. -/
def fix_malformed_json (text : List Char) : List Char :=
  let t1 := fixLineComments (text.length + 1) none text
  let t2 := fixBlockComments (t1.length + 1) t1
  let t3 := fixDotNumbers (t2.length + 1) none t2
  let t4 := fixSingleQuotes (t3.length + 1) t3
  let t5 := quoteKeys (t4.length + 1) t4
  let t6 := quoteValues (t5.length + 1) t5
  let t7 := dropCommaBeforeClose (t6.length + 1) t6
  let t8 := dropCommaAfterOpen (t7.length + 1) t7
  t8 ++ scanStack t8 []

/-! ## `_extract_json_objects` -/

/-- The scanning loop of `_extract_json_objects`, a faithful port of its state:
the stack of open brackets, the start offset of the current top-level span, the
in-string and escape flags, and the collected results.  `i` is the current
offset into `text`. -/
def extractGo (text : List Char) (stack : List Char) (start : Option Nat)
    (inStr esc : Bool) (results : List (List Char)) (i : Nat) :
    List Char → List (List Char)
  | [] =>
    match start with
    | some s => if stack.isEmpty then results else results ++ [text.drop s]
    | none => results
  | c :: rest =>
    if esc then extractGo text stack start inStr false results (i + 1) rest
    else if c = '\\' then extractGo text stack start inStr true results (i + 1) rest
    else if c = '"' then extractGo text stack start (!inStr) esc results (i + 1) rest
    else if inStr then extractGo text stack start inStr esc results (i + 1) rest
    else if c = '\x7b' ∨ c = '[' then
      extractGo text (c :: stack) (if stack.isEmpty then some i else start) inStr esc
        results (i + 1) rest
    else if c = '\x7d' ∨ c = ']' then
      match stack with
      | [] => extractGo text stack start inStr esc results (i + 1) rest
      | ob :: stack2 =>
        if (ob = '\x7b' ∧ c = '\x7d') ∨ (ob = '[' ∧ c = ']') then
          if stack2.isEmpty then
            match start with
            | some s =>
              extractGo text stack2 none inStr esc
                (results ++ [(text.drop s).take (i + 1 - s)]) (i + 1) rest
            | none => extractGo text stack2 none inStr esc results (i + 1) rest
          else extractGo text stack2 start inStr esc results (i + 1) rest
        else extractGo text [] none inStr esc results (i + 1) rest
    else extractGo text stack start inStr esc results (i + 1) rest

/-- `_extract_json_objects`: all balanced `{...}`/`[...]` spans, plus a
trailing unterminated span when the stack is non-empty at end of input. -/
def extract_json_objects (text : List Char) : List (List Char) :=
  extractGo text [] none false false [] 0 text

/-! ## The Markdown Extractor (strategy 2's `re.findall`) -/

/-- Group 1 and the remainder after the earliest `\n```​` (the lazy
`(.*?)\n```​` tail of `md_pattern`). -/
def findFenceBody : List Char → Option (List Char × List Char)
  | '\n' :: '`' :: '`' :: '`' :: r => some ([], r)
  | c :: r => (findFenceBody r).map fun p => (c :: p.1, p.2)
  | [] => none

/-- Greedy backtracking of the `\s*` in `(?:\w*\s*)?\n`: try each newline
inside the whitespace run as the mandatory `\n`, latest first. -/
def mdTryStarts (afterW : List Char) : List Nat → Option (List Char × List Char)
  | [] => none
  | k :: ks =>
    match findFenceBody (afterW.drop (k + 1)) with
    | some p => some p
    | none => mdTryStarts afterW ks

/-- The scanning loop of `re.findall(r"```(?:\w*\s*)?\n(.*?)\n```", raw,
flags=re.DOTALL)`, returning the group-1 bodies of all non-overlapping
matches. -/
def mdGo : Nat → List Char → List (List Char)
  | 0, _ => []
  | f + 1, cs =>
    match cs with
    | '`' :: '`' :: '`' :: r =>
      let afterW := r.dropWhile isIdentChar
      let run := afterW.takeWhile isPyWs
      let nls := ((run.enum.filter fun p => p.2 == '\n').map Prod.fst).reverse
      match mdTryStarts afterW nls with
      | some (body, r2) => body :: mdGo f r2
      | none => mdGo f ('`' :: '`' :: r)
    | _ :: r => mdGo f r
    | [] => []

/-- `re.findall` for `md_pattern` over the whole input. -/
def mdFindall (cs : List Char) : List (List Char) := mdGo (cs.length + 1) cs

/-! ## The Dispatcher: `from_str` -/

/-- Attempt a direct decode, then a decode of the repaired text (the recurring
`json.loads` / `_fix_malformed_json` / `json.loads` pattern of strategies 0, 2
and 3). -/
def tryDecodeFix (b : List Char) : Option JsonValue :=
  match json_loads b with
  | some v => some v
  | none => json_loads (fix_malformed_json b)

/-- Strategy 0: whole payload wrapped in a matching pair of quote characters
whose unwrapped, unescaped, stripped interior starts with `{` or `[`. -/
def strat0 (raw : List Char) : Option JsonValue :=
  let s := pyStrip raw
  match s with
  | c :: rest =>
    if 2 ≤ s.length ∧ s.getLastD ' ' = c ∧ (c = '"' ∨ c = '\x27') then
      let inner0 := rest.dropLast
      let inner1 :=
        if c = '"' then listReplace ['\\', '"'] ['"'] inner0
        else listReplace ['\\', '\x27'] ['\x27'] inner0
      match pyStrip inner1 with
      | d :: ds =>
        if d = '\x7b' ∨ d = '[' then tryDecodeFix (d :: ds) else none
      | [] => none
    else none
  | [] => none

/-- Strategy 2: code-block candidates; a single success is returned alone,
several successes as a list. -/
def strat2 (raw : List Char) : Option JsonValue :=
  match (mdFindall raw).filterMap (fun blk => tryDecodeFix (pyStrip blk)) with
  | [] => none
  | [v] => some v
  | vs => some (.arr vs)

/-- Strategy 3: extracted object/array candidates, same aggregation rule. -/
def strat3 (raw : List Char) : Option JsonValue :=
  match (extract_json_objects raw).filterMap tryDecodeFix with
  | [] => none
  | [v] => some v
  | vs => some (.arr vs)

/-- `from_str`: the strategy pipeline.  Empty/whitespace-only input yields
null; otherwise the first successful strategy wins and the trimmed input
string itself is the terminal fallback. -/
def from_str (input : List Char) : JsonValue :=
  if (pyStrip input).isEmpty then .null
  else
    match strat0 (pyStrip input) with
    | some v => v
    | none =>
    match json_loads (pyStrip input) with
    | some v => v
    | none =>
    match strat2 (pyStrip input) with
    | some v => v
    | none =>
    match strat3 (pyStrip input) with
    | some v => v
    | none =>
    match json_loads (fix_malformed_json (pyStrip input)) with
    | some v => v
    | none => .str (pyStrip input)

/-! ## The specification's bracket-balance property

This definition is written from the specification's words ("counting only
`{`, `}`, `[`, `]` characters occurring outside string literals, every opener
is matched by a closer of the same type"), to be compared with what the
repairer's own string-oblivious balancing scan guarantees.  String literals
are delimited by `"` with backslash escapes, as in the spec's scanner state. -/

def bosGo : Bool → Bool → List Char → List Char → Bool
  | _, _, stack, [] => stack.isEmpty
  | inStr, esc, stack, c :: r =>
    if esc then bosGo inStr false stack r
    else if c = '\\' then bosGo inStr true stack r
    else if c = '"' then bosGo (!inStr) esc stack r
    else if inStr then bosGo inStr esc stack r
    else if c = '\x7b' ∨ c = '[' then bosGo inStr esc (c :: stack) r
    else if c = '\x7d' then
      match stack with
      | '\x7b' :: s2 => bosGo inStr esc s2 r
      | _ => false
    else if c = ']' then
      match stack with
      | '[' :: s2 => bosGo inStr esc s2 r
      | _ => false
    else bosGo inStr esc stack r

/-- Balanced brackets outside string literals, per the claim's words. -/
def balancedOutsideStrings (cs : List Char) : Bool := bosGo false false [] cs

/-- The hypothesis of the fallback-guarantee claim: the input contains no `{`
and no `[` character at all. -/
def noBrackets (cs : List Char) : Prop := '\x7b' ∉ cs ∧ '[' ∉ cs

/-! ## Well-formed values

`json_loads` only ever produces values of this shape: number components are
digit strings obeying the JSON grammar, and object keys are distinct (the
Python dict collapses duplicates).  The round-trip property of claim C3 holds
for exactly these values. -/

/-- A number literal as produced by the scanner: non-empty integer digits with
no redundant leading zero, digit-only fraction, non-empty digit-only exponent
when present. -/
def WfNum (n : JsonNumber) : Prop :=
  n.ip ≠ [] ∧ (∀ c ∈ n.ip, c.isDigit = true) ∧ (n.ip.head? = some '0' → n.ip = ['0']) ∧
  (∀ c ∈ n.fp, c.isDigit = true) ∧
  (match n.ep with
   | none => True
   | some p => p.2 ≠ [] ∧ ∀ c ∈ p.2, c.isDigit = true)

/-- Values producible by the decoder. -/
inductive Wf : JsonValue → Prop where
  | null : Wf .null
  | bool (b : Bool) : Wf (.bool b)
  | num (n : JsonNumber) : WfNum n → Wf (.num n)
  | str (s : List Char) : Wf (.str s)
  | arr (xs : List JsonValue) : (∀ x ∈ xs, Wf x) → Wf (.arr xs)
  | obj (ms : List (List Char × JsonValue)) :
      (ms.map Prod.fst).Nodup → (∀ kv ∈ ms, Wf kv.2) → Wf (.obj ms)

/-- What may follow a serialised number so that the scanner stops exactly at
its end: end of input or a separator/closer, which is all that `dumpsV` ever
places after a value. -/
def numSafe (rest : List Char) : Prop :=
  rest = [] ∨ ∃ c r, rest = c :: r ∧ (c = ',' ∨ c = '\x7d' ∨ c = ']')

/-! # Theorems -/

/-! ## C4: the bracket-balance invariant of the Grammar Repairer -/

theorem scanStack_append (a b st : List Char) :
    scanStack (a ++ b) st = scanStack b (scanStack a st) :=
  List.foldl_append ..

theorem scanStep_closers {st : List Char} (c : Char)
    (h : ∀ x ∈ st, x = '\x7d' ∨ x = ']') :
    ∀ x ∈ scanStep st c, x = '\x7d' ∨ x = ']' := by
  intro x hx
  unfold scanStep at hx
  split_ifs at hx with h1 h2 h3
  · simp only [List.mem_cons] at hx
    rcases hx with rfl | hx
    · exact Or.inl rfl
    · exact h x hx
  · simp only [List.mem_cons] at hx
    rcases hx with rfl | hx
    · exact Or.inr rfl
    · exact h x hx
  · rcases st with _ | ⟨t, st2⟩
    · exact h x hx
    · dsimp only at hx
      split_ifs at hx with h4
      · exact h x (List.mem_cons_of_mem _ hx)
      · exact h x hx
  · exact h x hx

theorem scanStack_closers (cs : List Char) {st : List Char}
    (h : ∀ x ∈ st, x = '\x7d' ∨ x = ']') :
    ∀ x ∈ scanStack cs st, x = '\x7d' ∨ x = ']' := by
  induction cs generalizing st with
  | nil => exact h
  | cons c cs ih => exact ih (scanStep_closers c h)

theorem scanStack_self {st : List Char} (h : ∀ x ∈ st, x = '\x7d' ∨ x = ']') :
    scanStack st st = [] := by
  induction st with
  | nil => rfl
  | cons c st ih =>
    have hc : c = '\x7d' ∨ c = ']' := h c (List.mem_cons_self ..)
    have hst : ∀ x ∈ st, x = '\x7d' ∨ x = ']' := fun x hx => h x (List.mem_cons_of_mem _ hx)
    have step : scanStep (c :: st) c = st := by
      unfold scanStep
      rcases hc with rfl | rfl
      · simp
      · simp
    calc scanStack (c :: st) (c :: st) = scanStack st (scanStep (c :: st) c) := rfl
      _ = scanStack st st := by rw [step]
      _ = [] := ih hst

theorem balance_scan_empty (t : List Char) : scanStack (t ++ scanStack t []) [] = [] := by
  rw [scanStack_append]
  exact scanStack_self (scanStack_closers t (by simp))

/-- C4 (amended): rerunning the repairer's own string-oblivious LIFO balancing
scan on any output of `_fix_malformed_json` leaves an empty stack of expected
closers — every opener counted by that scan (brackets inside string literals
included) is eventually closed by a same-type closer. -/
theorem fix_malformed_json_scan_balanced (text : List Char) :
    scanStack (fix_malformed_json text) [] = [] := by
  unfold fix_malformed_json
  exact balance_scan_empty _

/-- C4 (counterexample): on the input `["]"` the repairer's output is `["]"`
itself, whose only bracket outside string literals is the unmatched opener
`[` — the output of the Grammar Repairer is NOT always balanced when counting
only brackets outside string literals, because the balancing pass is oblivious
to string literals. -/
theorem fix_malformed_json_not_balanced_outside_strings :
    balancedOutsideStrings (fix_malformed_json ("[\"]\"".data)) = false := by rfl

/-! ## C1: totality of `from_str` -/

/-- C1: `from_str` never raises and always returns a value.  In this shallow
embedding every fallible decode is an `Option`-returning function whose `none`
results are absorbed by the strategy fallthrough of `from_str`, whose own
result type has no error case: it is total, terminating in the
string-passthrough fallback. -/
theorem from_str_total (input : List Char) : ∃ v : JsonValue, from_str input = v :=
  ⟨from_str input, rfl⟩

/-! ## C2: the fallback guarantee for bracket-free input -/

theorem mem_pyStrip {x : Char} {l : List Char} (h : x ∈ pyStrip l) : x ∈ l := by
  unfold pyStrip at h
  rw [List.mem_reverse] at h
  have h2 := (List.dropWhile_sublist _).subset h
  rw [List.mem_reverse] at h2
  exact (List.dropWhile_sublist _).subset h2

theorem mem_listReplaceF {f : Nat} {p r l : List Char} {x : Char}
    (h : x ∈ listReplaceF f p r l) : x ∈ l ∨ x ∈ r := by
  induction f generalizing l with
  | zero => exact Or.inl h
  | succ f ih =>
    cases l with
    | nil => exact Or.inl h
    | cons c cs =>
      rw [listReplaceF] at h
      split_ifs at h with hp
      · rw [List.mem_append] at h
        rcases h with h | h
        · exact Or.inr h
        · rcases ih h with h2 | h2
          · exact Or.inl (List.drop_subset _ _ h2)
          · exact Or.inr h2
      · rw [List.mem_cons] at h
        rcases h with rfl | h
        · exact Or.inl (List.mem_cons_self ..)
        · rcases ih h with h2 | h2
          · exact Or.inl (List.mem_cons_of_mem _ h2)
          · exact Or.inr h2

theorem extractGo_no_brackets (text : List Char) (cs : List Char) :
    ∀ (i : Nat) (inStr esc : Bool), '\x7b' ∉ cs → '[' ∉ cs →
      extractGo text [] none inStr esc [] i cs = [] := by
  induction cs with
  | nil => intro i inStr esc _ _; rfl
  | cons c cs ih =>
    intro i inStr esc h1 h2
    have h1' : '\x7b' ∉ cs := fun hm => h1 (List.mem_cons_of_mem _ hm)
    have h2' : '[' ∉ cs := fun hm => h2 (List.mem_cons_of_mem _ hm)
    have hc1 : ¬(c = '\x7b') := fun hc => h1 (hc ▸ List.mem_cons_self ..)
    have hc2 : ¬(c = '[') := fun hc => h2 (hc ▸ List.mem_cons_self ..)
    rw [extractGo]
    split_ifs with g1 g2 g3 g4 g5 g6
    all_goals try exact ih _ _ _ h1' h2'
    all_goals rcases g5 with hh | hh
    all_goals first
      | exact absurd hh hc1
      | exact absurd hh hc2

theorem extract_json_objects_no_brackets {cs : List Char} (h : noBrackets cs) :
    extract_json_objects cs = [] :=
  extractGo_no_brackets cs cs 0 false false h.1 h.2

theorem strat0_none {raw : List Char} (h : noBrackets raw) : strat0 raw = none := by
  have hmem : ∀ x ∈ pyStrip raw, ¬(x = '\x7b') ∧ ¬(x = '[') := by
    intro x hx
    exact ⟨fun he => h.1 (he ▸ mem_pyStrip hx), fun he => h.2 (he ▸ mem_pyStrip hx)⟩
  unfold strat0
  cases hs : pyStrip raw with
  | nil => rfl
  | cons c rest =>
    dsimp only
    have key : ∀ p r : List Char, '\x7b' ∉ r → '[' ∉ r →
        (match pyStrip (listReplace p r rest.dropLast) with
         | d :: ds => if d = '\x7b' ∨ d = '[' then tryDecodeFix (d :: ds) else none
         | [] => none) = none := by
      intro p r hr1 hr2
      cases hi : pyStrip (listReplace p r rest.dropLast) with
      | nil => rfl
      | cons d ds =>
        dsimp only
        have hd1 : d ∈ pyStrip (listReplace p r rest.dropLast) := by
          rw [hi]; exact List.mem_cons_self ..
        rcases mem_listReplaceF (mem_pyStrip hd1) with hm | hm
        · have hdr : d ∈ raw := by
            apply mem_pyStrip
            rw [hs]
            exact List.mem_cons_of_mem _ ((List.dropLast_sublist _).subset hm)
          rw [if_neg]
          rintro (he | he)
          · exact h.1 (he ▸ hdr)
          · exact h.2 (he ▸ hdr)
        · rw [if_neg]
          rintro (he | he)
          · exact hr1 (he ▸ hm)
          · exact hr2 (he ▸ hm)
    by_cases hg : 2 ≤ (c :: rest).length ∧ (c :: rest).getLastD ' ' = c ∧ (c = '"' ∨ c = '\x27')
    · rw [if_pos hg]
      by_cases hq : c = '"'
      · rw [if_pos hq]
        exact key ['\\', '"'] ['"'] (by decide) (by decide)
      · rw [if_neg hq]
        exact key ['\\', '\x27'] ['\x27'] (by decide) (by decide)
    · rw [if_neg hg]

theorem strat3_none {raw : List Char} (h : noBrackets raw) : strat3 raw = none := by
  unfold strat3
  rw [extract_json_objects_no_brackets h]
  rfl

/-- C2 (amended): for input containing no `{` or `[` character, that is
non-empty after trimming, and on which the remaining decode attempts all fail
(the direct decode, every markdown code-block decode, and the repaired
whole-input decode), `from_str` returns the trimmed input string unchanged.
The bracketless premise settles strategies 0 and 3 by itself: the quoted-blob
strategy cannot expose a `{`/`[` head and the extractor finds no candidate. -/
theorem from_str_no_brackets (input : List Char)
    (hb : noBrackets input)
    (hne : pyStrip input ≠ [])
    (h1 : json_loads (pyStrip input) = none)
    (h2 : strat2 (pyStrip input) = none)
    (h4 : json_loads (fix_malformed_json (pyStrip input)) = none) :
    from_str input = .str (pyStrip input) := by
  have hbraw : noBrackets (pyStrip input) :=
    ⟨fun hm => hb.1 (mem_pyStrip hm), fun hm => hb.2 (mem_pyStrip hm)⟩
  have hie : (pyStrip input).isEmpty = false := by
    cases hc : pyStrip input with
    | nil => exact absurd hc hne
    | cons c rest => rfl
  unfold from_str
  rw [hie]
  simp only [Bool.false_eq_true, if_false, strat0_none hbraw, h1, h2, strat3_none hbraw, h4]

/-- C2 (witness for the amended claim): on the bracketless input `hello` all
decode attempts fail and `from_str` returns the string itself. -/
theorem from_str_no_brackets_witness : from_str ("hello".data) = .str ("hello".data) :=
  from_str_no_brackets "hello".data (by constructor <;> decide) (by decide) rfl rfl rfl

/-- C2 (counterexample): the input `true` contains no `{` and no `[`, yet
`from_str` returns the boolean value `true` (the direct decode succeeds), not
the trimmed input string. -/
theorem from_str_no_brackets_cx :
    from_str ("true".data) = .bool true ∧ JsonValue.bool true ≠ .str ("true".data) :=
  ⟨by rfl, fun h => JsonValue.noConfusion h⟩

/-! ## C3: round-trip of decode-on-success

The development below proves that `json_loads (dumpsV v) = some v` for every
well-formed value `v`, that `from_str` only produces well-formed values, and
hence the claim: a non-string value returned by `from_str` survives a
serialise/re-parse round trip unchanged. -/

theorem ne_of_digit {c d : Char} (h : c.isDigit = true) (hd : d.isDigit = false) :
    ¬(c = d) := by
  intro he
  rw [he, hd] at h
  exact Bool.noConfusion h

theorem isPyWs_digit {c : Char} (h : c.isDigit = true) : isPyWs c = false := by
  simp only [isPyWs, Bool.or_eq_false_iff, beq_eq_false_iff_ne]
  repeat' apply And.intro
  all_goals exact ne_of_digit h (by decide)

theorem isJsonWs_digit {c : Char} (h : c.isDigit = true) : isJsonWs c = false := by
  simp only [isJsonWs, Bool.or_eq_false_iff, beq_eq_false_iff_ne]
  repeat' apply And.intro
  all_goals exact ne_of_digit h (by decide)

theorem takeWhile_append_all {p : Char → Bool} {ds : List Char} (rest : List Char)
    (h : ∀ c ∈ ds, p c = true) :
    (ds ++ rest).takeWhile p = ds ++ rest.takeWhile p := by
  induction ds with
  | nil => rfl
  | cons d ds ih =>
    rw [List.cons_append, List.takeWhile_cons_of_pos (h d (List.mem_cons_self ..)),
      ih fun c hc => h c (List.mem_cons_of_mem _ hc), List.cons_append]

theorem dropWhile_append_all {p : Char → Bool} {ds : List Char} (rest : List Char)
    (h : ∀ c ∈ ds, p c = true) :
    (ds ++ rest).dropWhile p = rest.dropWhile p := by
  induction ds with
  | nil => rfl
  | cons d ds ih =>
    rw [List.cons_append, List.dropWhile_cons_of_pos (h d (List.mem_cons_self ..)),
      ih fun c hc => h c (List.mem_cons_of_mem _ hc)]

theorem takeWhile_eq_nil_head {p : Char → Bool} {rest : List Char}
    (h : ∀ c, rest.head? = some c → p c = false) : rest.takeWhile p = [] := by
  cases rest with
  | nil => rfl
  | cons c r => exact List.takeWhile_cons_of_neg (by simp [h c rfl])

theorem dropWhile_eq_self_head {p : Char → Bool} {rest : List Char}
    (h : ∀ c, rest.head? = some c → p c = false) : rest.dropWhile p = rest := by
  cases rest with
  | nil => rfl
  | cons c r => exact List.dropWhile_cons_of_neg (by simp [h c rfl])

theorem numSafe_head {rest : List Char} (h : numSafe rest) :
    ∀ c, rest.head? = some c → c.isDigit = false ∧ ¬(c = '.') ∧ ¬(c = 'e') ∧ ¬(c = 'E') ∧
      ¬(c = '+') ∧ ¬(c = '-') := by
  intro c hc
  rcases h with rfl | ⟨c0, r, rfl, hc0⟩
  · exact Option.noConfusion hc
  · rw [List.head?_cons, Option.some.injEq] at hc
    subst hc
    rcases hc0 with rfl | rfl | rfl <;> exact ⟨by decide, by decide, by decide, by decide,
      by decide, by decide⟩

/-! ### String escape round trip -/

theorem hexVal_hexDigit {m : Nat} (h : m < 16) : hexVal (hexDigit m) = some m := by
  interval_cases m <;> rfl

theorem hex4_lt32 {t : Nat} (h : t < 32) :
    hex4 '0' '0' (hexDigit (t / 16)) (hexDigit (t % 16)) = some t := by
  have h1 : t / 16 < 16 := by omega
  have h2 : t % 16 < 16 := by omega
  simp only [hex4, show hexVal '0' = some 0 from rfl, hexVal_hexDigit h1, hexVal_hexDigit h2,
    Option.bind_eq_bind, Option.some_bind, Option.some.injEq, pure]
  omega

theorem parseStr_cons (c : Char) (X : List Char) :
    parseStr (c :: X) = if c = '"' then some ([], X)
      else if c = '\\' then parseEsc X
      else if c.toNat < 32 then none
      else (parseStr X).map fun p => (c :: p.1, p.2) := rfl

theorem parseEsc_u00 {t : Nat} (ht : t < 32) (h1 h2 : Char)
    (hh1 : hexVal h1 = some (t / 16)) (hh2 : hexVal h2 = some (t % 16)) (tail : List Char) :
    parseEsc ('u' :: '0' :: '0' :: h1 :: h2 :: tail)
      = (parseStr tail).map fun p => (Char.ofNat t :: p.1, p.2) := by
  have e : parseEsc ('u' :: '0' :: '0' :: h1 :: h2 :: tail)
      = (match hex4 '0' '0' h1 h2 with
         | none => none
         | some n =>
           if 0xD800 ≤ n ∧ n ≤ 0xDBFF then parseLowSurrogate n tail
           else if 0xDC00 ≤ n ∧ n ≤ 0xDFFF then none
           else (parseStr tail).map fun p => (Char.ofNat n :: p.1, p.2)) := rfl
  have e4 : hex4 '0' '0' h1 h2 = some t := by
    simp only [hex4, show hexVal '0' = some 0 from rfl, hh1, hh2, Option.bind_eq_bind,
      Option.some_bind, Option.some.injEq, pure]
    omega
  rw [e, e4]
  dsimp only
  rw [if_neg (by omega), if_neg (by omega)]

theorem parseStr_escStr (s rest : List Char) :
    parseStr (escStr s ++ '"' :: rest) = some (s, rest) := by
  induction s with
  | nil => rfl
  | cons c s ih =>
    rw [show escStr (c :: s) = escChar1 c ++ escStr s from rfl, List.append_assoc]
    unfold escChar1
    split_ifs with h1 h2 h3 h4 h5 h6 h7 h8
    · subst h1
      show parseStr ('\\' :: '"' :: (escStr s ++ '"' :: rest)) = _
      rw [parseStr_cons, if_neg (by decide), if_pos rfl,
        show parseEsc ('"' :: (escStr s ++ '"' :: rest))
          = (parseStr (escStr s ++ '"' :: rest)).map (fun p => ('"' :: p.1, p.2)) from rfl, ih]
      rfl
    · subst h2
      show parseStr ('\\' :: '\\' :: (escStr s ++ '"' :: rest)) = _
      rw [parseStr_cons, if_neg (by decide), if_pos rfl,
        show parseEsc ('\\' :: (escStr s ++ '"' :: rest))
          = (parseStr (escStr s ++ '"' :: rest)).map (fun p => ('\\' :: p.1, p.2)) from rfl, ih]
      rfl
    · subst h3
      show parseStr ('\\' :: 'n' :: (escStr s ++ '"' :: rest)) = _
      rw [parseStr_cons, if_neg (by decide), if_pos rfl,
        show parseEsc ('n' :: (escStr s ++ '"' :: rest))
          = (parseStr (escStr s ++ '"' :: rest)).map (fun p => ('\n' :: p.1, p.2)) from rfl, ih]
      rfl
    · subst h4
      show parseStr ('\\' :: 't' :: (escStr s ++ '"' :: rest)) = _
      rw [parseStr_cons, if_neg (by decide), if_pos rfl,
        show parseEsc ('t' :: (escStr s ++ '"' :: rest))
          = (parseStr (escStr s ++ '"' :: rest)).map (fun p => ('\t' :: p.1, p.2)) from rfl, ih]
      rfl
    · subst h5
      show parseStr ('\\' :: 'r' :: (escStr s ++ '"' :: rest)) = _
      rw [parseStr_cons, if_neg (by decide), if_pos rfl,
        show parseEsc ('r' :: (escStr s ++ '"' :: rest))
          = (parseStr (escStr s ++ '"' :: rest)).map (fun p => ('\r' :: p.1, p.2)) from rfl, ih]
      rfl
    · subst h6
      show parseStr ('\\' :: 'b' :: (escStr s ++ '"' :: rest)) = _
      rw [parseStr_cons, if_neg (by decide), if_pos rfl,
        show parseEsc ('b' :: (escStr s ++ '"' :: rest))
          = (parseStr (escStr s ++ '"' :: rest)).map (fun p => ('\x08' :: p.1, p.2)) from rfl, ih]
      rfl
    · subst h7
      show parseStr ('\\' :: 'f' :: (escStr s ++ '"' :: rest)) = _
      rw [parseStr_cons, if_neg (by decide), if_pos rfl,
        show parseEsc ('f' :: (escStr s ++ '"' :: rest))
          = (parseStr (escStr s ++ '"' :: rest)).map (fun p => ('\x0c' :: p.1, p.2)) from rfl, ih]
      rfl
    · show parseStr ('\\' :: 'u' :: '0' :: '0' :: hexDigit (c.toNat / 16)
          :: hexDigit (c.toNat % 16) :: (escStr s ++ '"' :: rest)) = _
      rw [parseStr_cons, if_neg (by decide), if_pos rfl,
        parseEsc_u00 h8 _ _ (hexVal_hexDigit (by omega)) (hexVal_hexDigit (by omega)), ih,
        Char.ofNat_toNat]
      rfl
    · show parseStr (c :: (escStr s ++ '"' :: rest)) = _
      rw [parseStr_cons, if_neg h1, if_neg h2, if_neg h8, ih]
      rfl

/-! ### Number literal round trip -/

theorem scanIntPart_append {ip : List Char} (T : List Char)
    (hne : ip ≠ []) (hd : ∀ c ∈ ip, c.isDigit = true) (h0 : ip.head? = some '0' → ip = ['0'])
    (hT : ∀ c, T.head? = some c → c.isDigit = false) :
    scanIntPart (ip ++ T) = some (ip, T) := by
  obtain ⟨c0, ipt, rfl⟩ : ∃ c0 ipt, ip = c0 :: ipt := by
    cases ip with
    | nil => exact absurd rfl hne
    | cons a b => exact ⟨a, b, rfl⟩
  have hc0 : c0.isDigit = true := hd c0 (List.mem_cons_self ..)
  unfold scanIntPart
  rw [List.cons_append, List.head?_cons]
  dsimp only
  rw [if_pos hc0]
  by_cases hz : c0 = '0'
  · subst hz
    obtain rfl : ipt = [] := by
      have h2 := h0 rfl
      exact (List.cons.injEq .. ▸ h2).2
    rw [if_pos rfl, List.tail_cons, List.nil_append]
  · rw [if_neg hz, ← List.cons_append, takeWhile_append_all T hd, dropWhile_append_all T hd,
      takeWhile_eq_nil_head hT, dropWhile_eq_self_head hT, List.append_nil]

theorem scanFrac_none {r : List Char} (h : ∀ c, r.head? = some c → ¬(c = '.')) :
    scanFrac r = ([], r) := by
  unfold scanFrac
  rw [if_neg fun he => h '.' he rfl]

theorem scanFrac_pos {fp : List Char} (rest' : List Char) (hne : fp ≠ [])
    (hd : ∀ c ∈ fp, c.isDigit = true)
    (hrest : ∀ c, rest'.head? = some c → c.isDigit = false) :
    scanFrac ('.' :: (fp ++ rest')) = (fp, rest') := by
  have hie : fp.isEmpty = false := by
    cases fp with
    | nil => exact absurd rfl hne
    | cons a b => rfl
  unfold scanFrac
  simp only [List.head?_cons, List.tail_cons, if_true]
  rw [takeWhile_append_all _ hd, takeWhile_eq_nil_head hrest, List.append_nil, hie]
  simp only [Bool.false_eq_true, if_false]
  rw [dropWhile_append_all _ hd, dropWhile_eq_self_head hrest]

theorem scanExp_none {r : List Char}
    (h : ∀ c, r.head? = some c → ¬(c = 'e') ∧ ¬(c = 'E')) :
    scanExp r = (none, r) := by
  unfold scanExp
  rw [if_neg]
  rintro (he | he)
  · exact (h 'e' he).1 rfl
  · exact (h 'E' he).2 rfl

theorem scanExp_some (sg : Option Bool) (ds rest : List Char) (hne : ds ≠ [])
    (hd : ∀ c ∈ ds, c.isDigit = true)
    (hrest : ∀ c, rest.head? = some c → c.isDigit = false) :
    scanExp ('e' :: (expSign sg ++ (ds ++ rest))) = (some (sg, ds), rest) := by
  obtain ⟨d0, dst, rfl⟩ : ∃ d0 dst, ds = d0 :: dst := by
    cases ds with
    | nil => exact absurd rfl hne
    | cons a b => exact ⟨a, b, rfl⟩
  have hd0 : d0.isDigit = true := hd d0 (List.mem_cons_self ..)
  have hied : (d0 :: dst).isEmpty = false := rfl
  have hdplus : ¬(some d0 = some '+') :=
    fun he => ne_of_digit hd0 (by decide) (Option.some.inj he)
  have hdminus : ¬(some d0 = some '-') :=
    fun he => ne_of_digit hd0 (by decide) (Option.some.inj he)
  cases sg with
  | none =>
    unfold scanExp
    simp only [expSign, List.nil_append, List.cons_append, List.head?_cons, List.tail_cons,
      true_or, or_true, if_true]
    rw [if_neg hdplus, if_neg hdminus,
      if_neg (show ¬(some d0 = some '+' ∨ some d0 = some '-') from
        fun hc => hc.elim hdplus hdminus),
      ← List.cons_append, takeWhile_append_all _ hd, takeWhile_eq_nil_head hrest,
      List.append_nil, hied]
    simp only [Bool.false_eq_true, if_false]
    rw [dropWhile_append_all _ hd, dropWhile_eq_self_head hrest]
  | some b =>
    cases b with
    | false =>
      unfold scanExp
      simp only [expSign, List.nil_append, List.cons_append, List.head?_cons, List.tail_cons,
        true_or, or_true, if_true]
      rw [← List.cons_append, takeWhile_append_all _ hd, takeWhile_eq_nil_head hrest,
        List.append_nil, hied]
      simp only [Bool.false_eq_true, if_false]
      rw [dropWhile_append_all _ hd, dropWhile_eq_self_head hrest]
    | true =>
      unfold scanExp
      simp only [expSign, List.nil_append, List.cons_append, List.head?_cons, List.tail_cons,
        true_or, or_true, if_true]
      rw [if_neg (fun he => absurd (Option.some.inj he) (by decide : ¬('-' = '+'))),
        ← List.cons_append, takeWhile_append_all _ hd, takeWhile_eq_nil_head hrest,
        List.append_nil, hied]
      simp only [Bool.false_eq_true, if_false]
      rw [dropWhile_append_all _ hd, dropWhile_eq_self_head hrest]

theorem epChars_head (ep : Option (Option Bool × List Char)) (rest : List Char)
    (hr : numSafe rest) :
    ∀ c, (epChars ep ++ rest).head? = some c → c.isDigit = false ∧ ¬(c = '.') := by
  cases ep with
  | none =>
    intro c hc
    rw [show epChars none = [] from rfl, List.nil_append] at hc
    exact ⟨(numSafe_head hr c hc).1, (numSafe_head hr c hc).2.1⟩
  | some p =>
    obtain ⟨sg, ds⟩ := p
    intro c hc
    rw [show epChars (some (sg, ds)) = 'e' :: (expSign sg ++ ds) from rfl,
      List.cons_append, List.head?_cons] at hc
    obtain rfl := Option.some.inj hc
    exact ⟨by decide, by decide⟩

theorem scanExp_epChars (ep : Option (Option Bool × List Char)) (rest : List Char)
    (hep : match ep with
      | none => True
      | some p => p.2 ≠ [] ∧ ∀ c ∈ p.2, c.isDigit = true)
    (hr : numSafe rest) :
    scanExp (epChars ep ++ rest) = (ep, rest) := by
  cases ep with
  | none =>
    rw [show epChars none = [] from rfl, List.nil_append]
    exact scanExp_none fun c hc =>
      ⟨(numSafe_head hr c hc).2.2.1, (numSafe_head hr c hc).2.2.2.1⟩
  | some p =>
    obtain ⟨sg, ds⟩ := p
    obtain ⟨h1, h2⟩ := hep
    rw [show epChars (some (sg, ds)) = 'e' :: (expSign sg ++ ds) from rfl,
      List.cons_append, List.append_assoc]
    exact scanExp_some sg ds rest h1 h2 fun c hc => (numSafe_head hr c hc).1

theorem fpChars_head (fp : List Char) (ep : Option (Option Bool × List Char))
    (rest : List Char) (hr : numSafe rest) :
    ∀ c, (fpChars fp ++ (epChars ep ++ rest)).head? = some c → c.isDigit = false := by
  cases fp with
  | nil =>
    intro c hc
    rw [show fpChars [] = [] from rfl, List.nil_append] at hc
    exact (epChars_head ep rest hr c hc).1
  | cons f0 ft =>
    intro c hc
    rw [show fpChars (f0 :: ft) = '.' :: (f0 :: ft) from rfl, List.cons_append,
      List.head?_cons] at hc
    obtain rfl := Option.some.inj hc
    decide

theorem scanFrac_fpChars (fp : List Char) (ep : Option (Option Bool × List Char))
    (rest : List Char) (hfpd : ∀ c ∈ fp, c.isDigit = true) (hr : numSafe rest) :
    scanFrac (fpChars fp ++ (epChars ep ++ rest)) = (fp, epChars ep ++ rest) := by
  cases fp with
  | nil =>
    rw [show fpChars [] = [] from rfl, List.nil_append]
    exact scanFrac_none fun c hc => (epChars_head ep rest hr c hc).2
  | cons f0 ft =>
    rw [show fpChars (f0 :: ft) = '.' :: (f0 :: ft) from rfl, List.cons_append]
    exact scanFrac_pos _ (by simp) hfpd fun c hc => (epChars_head ep rest hr c hc).1

theorem parseNum_numLit (n : JsonNumber) (hn : WfNum n) (rest : List Char)
    (hr : numSafe rest) : parseNum (numLit n ++ rest) = some (.num n, rest) := by
  obtain ⟨hip, hipd, hip0, hfpd, hep⟩ := hn
  obtain ⟨c0, ipt, hipe⟩ : ∃ c0 ipt, n.ip = c0 :: ipt := by
    cases h : n.ip with
    | nil => exact absurd h hip
    | cons a b => exact ⟨a, b, rfl⟩
  have hc0 : c0.isDigit = true := hipd c0 (by rw [hipe]; exact List.mem_cons_self ..)
  have hnegne : ¬(some c0 = some '-') :=
    fun he => ne_of_digit hc0 (by decide) (Option.some.inj he)
  have hInt : scanIntPart (n.ip ++ (fpChars n.fp ++ (epChars n.ep ++ rest)))
      = some (n.ip, fpChars n.fp ++ (epChars n.ep ++ rest)) :=
    scanIntPart_append _ hip hipd hip0 (fpChars_head n.fp n.ep rest hr)
  unfold numLit parseNum
  simp only [List.append_assoc]
  cases hng : n.neg with
  | true =>
    rw [if_pos rfl, List.singleton_append, List.head?_cons, if_pos rfl, List.tail_cons, hInt]
    dsimp only
    rw [scanFrac_fpChars n.fp n.ep rest hfpd hr]
    dsimp only
    rw [scanExp_epChars n.ep rest hep hr]
    dsimp only
    rw [show (decide (some '-' = some '-')) = true from rfl, ← hng]
  | false =>
    rw [if_neg (show ¬(false = true) by simp), List.nil_append, hipe, List.cons_append,
      List.head?_cons, if_neg hnegne]
    rw [hipe, List.cons_append] at hInt
    rw [hInt]
    dsimp only
    rw [scanFrac_fpChars n.fp n.ep rest hfpd hr]
    dsimp only
    rw [scanExp_epChars n.ep rest hep hr]
    dsimp only
    rw [decide_eq_false hnegne, ← hng, ← hipe]

/-! ### Value round trip -/

theorem parseVal_cons (f : Nat) (c : Char) (r : List Char) :
    parseVal (f + 1) (c :: r) =
      (if c = '\x7b' then
        (if (r.dropWhile isJsonWs).head? = some '\x7d' then
          some (.obj [], (r.dropWhile isJsonWs).tail)
        else parseMembers f (r.dropWhile isJsonWs) [])
      else if c = '[' then
        (if (r.dropWhile isJsonWs).head? = some ']' then
          some (.arr [], (r.dropWhile isJsonWs).tail)
        else parseElems f (r.dropWhile isJsonWs) [])
      else if c = '"' then (parseStr r).map fun p => (.str p.1, p.2)
      else if startsWithList "true".data (c :: r) then some (.bool true, (c :: r).drop 4)
      else if startsWithList "false".data (c :: r) then some (.bool false, (c :: r).drop 5)
      else if startsWithList "null".data (c :: r) then some (.null, (c :: r).drop 4)
      else parseNum (c :: r)) := rfl

theorem parseMembers_cons (f : Nat) (c : Char) (r : List Char)
    (acc : List (List Char × JsonValue)) :
    parseMembers (f + 1) (c :: r) acc =
      (if c = '"' then
        match parseStr r with
        | none => none
        | some (k, r1) =>
          match r1.dropWhile isJsonWs with
          | [] => none
          | c2 :: r2 =>
            if c2 = ':' then
              match parseVal f (r2.dropWhile isJsonWs) with
              | none => none
              | some (v, r3) =>
                match r3.dropWhile isJsonWs with
                | [] => none
                | c3 :: r4 =>
                  if c3 = ',' then parseMembers f (r4.dropWhile isJsonWs) (upsert acc k v)
                  else if c3 = '\x7d' then some (.obj (upsert acc k v), r4)
                  else none
            else none
      else none) := rfl

theorem parseElems_succ (f : Nat) (cs : List Char) (acc : List JsonValue) :
    parseElems (f + 1) cs acc =
      (match parseVal f cs with
      | none => none
      | some (v, r) =>
        match r.dropWhile isJsonWs with
        | [] => none
        | c :: r2 =>
          if c = ',' then parseElems f (r2.dropWhile isJsonWs) (acc ++ [v])
          else if c = ']' then some (.arr (acc ++ [v]), r2)
          else none) := rfl

theorem startsWith_self (p l : List Char) : startsWithList p (p ++ l) = true := by
  induction p with
  | nil => rfl
  | cons c p ih => simp [startsWithList, ih]

theorem startsWith_ne_head {d c : Char} (p r : List Char) (h : ¬(d = c)) :
    startsWithList (d :: p) (c :: r) = false := by
  rw [show startsWithList (d :: p) (c :: r) = ((d == c) && startsWithList p r) from rfl,
    beq_eq_false_iff_ne.mpr h, Bool.false_and]

/-- The possible first characters of a serialised value. -/
def headSpec (c : Char) : Prop :=
  c = '\x7b' ∨ c = '[' ∨ c = '"' ∨ c = 't' ∨ c = 'f' ∨ c = 'n' ∨ c = '-' ∨ c.isDigit = true

theorem headSpec_props {c : Char} (h : headSpec c) :
    isJsonWs c = false ∧ isPyWs c = false ∧ ¬(c = ']') ∧ ¬(c = '\x7d') ∧ ¬(c = ',') := by
  rcases h with rfl | rfl | rfl | rfl | rfl | rfl | rfl | hd
  · exact ⟨rfl, rfl, by decide, by decide, by decide⟩
  · exact ⟨rfl, rfl, by decide, by decide, by decide⟩
  · exact ⟨rfl, rfl, by decide, by decide, by decide⟩
  · exact ⟨rfl, rfl, by decide, by decide, by decide⟩
  · exact ⟨rfl, rfl, by decide, by decide, by decide⟩
  · exact ⟨rfl, rfl, by decide, by decide, by decide⟩
  · exact ⟨rfl, rfl, by decide, by decide, by decide⟩
  · exact ⟨isJsonWs_digit hd, isPyWs_digit hd, ne_of_digit hd (by decide),
      ne_of_digit hd (by decide), ne_of_digit hd (by decide)⟩

theorem numLit_head {n : JsonNumber} (hn : WfNum n) :
    ∃ c t, numLit n = c :: t ∧ (c = '-' ∨ c.isDigit = true) := by
  obtain ⟨hip, hipd, _, _, _⟩ := hn
  obtain ⟨c0, ipt, hipe⟩ : ∃ c0 ipt, n.ip = c0 :: ipt := by
    cases h : n.ip with
    | nil => exact absurd h hip
    | cons a b => exact ⟨a, b, rfl⟩
  have hc0 : c0.isDigit = true := hipd c0 (by rw [hipe]; exact List.mem_cons_self ..)
  cases hng : n.neg with
  | true =>
    refine ⟨'-', n.ip ++ fpChars n.fp ++ epChars n.ep, ?_, Or.inl rfl⟩
    rw [numLit, hng, if_pos rfl]
    simp [List.append_assoc]
  | false =>
    refine ⟨c0, ipt ++ (fpChars n.fp ++ epChars n.ep), ?_, Or.inr hc0⟩
    rw [numLit, hng, if_neg (show ¬(false = true) by simp), List.nil_append, hipe,
      List.append_assoc, List.cons_append]

theorem dumpsV_head_spec (v : JsonValue) (hw : Wf v) :
    ∃ c t, dumpsV v = c :: t ∧ headSpec c := by
  cases v with
  | null => exact ⟨'n', ['u', 'l', 'l'], rfl, Or.inr (Or.inr (Or.inr (Or.inr (Or.inr
      (Or.inl rfl)))))⟩
  | bool b =>
    cases b with
    | true => exact ⟨'t', ['r', 'u', 'e'], rfl, Or.inr (Or.inr (Or.inr (Or.inl rfl)))⟩
    | false => exact ⟨'f', ['a', 'l', 's', 'e'], rfl,
        Or.inr (Or.inr (Or.inr (Or.inr (Or.inl rfl))))⟩
  | num n =>
    have hn : WfNum n := by cases hw with | num _ h => exact h
    obtain ⟨c, t, he, hc⟩ := numLit_head hn
    exact ⟨c, t, he, hc.elim (fun h => Or.inr (Or.inr (Or.inr (Or.inr (Or.inr (Or.inr
      (Or.inl h))))))) fun h => Or.inr (Or.inr (Or.inr (Or.inr (Or.inr (Or.inr
      (Or.inr h))))))⟩
  | str s => exact ⟨'"', escStr s ++ ['"'], rfl, Or.inr (Or.inr (Or.inl rfl))⟩
  | arr xs =>
    cases xs with
    | nil => exact ⟨'[', [']'], rfl, Or.inr (Or.inl rfl)⟩
    | cons x xs => exact ⟨'[', dumpsV x ++ dumpsArrTail xs ++ [']'], rfl, Or.inr (Or.inl rfl)⟩
  | obj ms =>
    cases ms with
    | nil => exact ⟨'\x7b', ['\x7d'], rfl, Or.inl rfl⟩
    | cons kv ms =>
      obtain ⟨k, v⟩ := kv
      exact ⟨'\x7b', ('"' :: escStr k ++ '"' :: ':' :: ' ' :: dumpsV v) ++ dumpsObjTail ms ++
        ['\x7d'], rfl, Or.inl rfl⟩

theorem dumpsV_length_pos (v : JsonValue) (hw : Wf v) : 1 ≤ (dumpsV v).length := by
  obtain ⟨c, t, he, _⟩ := dumpsV_head_spec v hw
  rw [he]
  simp

theorem dropWhile_ws_dumps (v : JsonValue) (hw : Wf v) (X : List Char) :
    (dumpsV v ++ X).dropWhile isJsonWs = dumpsV v ++ X := by
  obtain ⟨c, t, he, hsp⟩ := dumpsV_head_spec v hw
  rw [he, List.cons_append]
  exact List.dropWhile_cons_of_neg (by simp [(headSpec_props hsp).1])

theorem numSafe_objTail (ms : List (List Char × JsonValue)) (rest : List Char) :
    numSafe (dumpsObjTail ms ++ '\x7d' :: rest) := by
  cases ms with
  | nil =>
    right
    exact ⟨'\x7d', rest, by rw [show dumpsObjTail [] = [] from rfl, List.nil_append],
      Or.inr (Or.inl rfl)⟩
  | cons kv ms =>
    obtain ⟨k, v⟩ := kv
    right
    refine ⟨',', ' ' :: ('"' :: escStr k ++ '"' :: ':' :: ' ' :: dumpsV v) ++
      dumpsObjTail ms ++ '\x7d' :: rest, ?_, Or.inl rfl⟩
    rw [show dumpsObjTail ((k, v) :: ms)
        = ',' :: ' ' :: ('"' :: escStr k ++ '"' :: ':' :: ' ' :: dumpsV v) ++ dumpsObjTail ms
        from rfl]
    simp

theorem numSafe_arrTail (xs : List JsonValue) (rest : List Char) :
    numSafe (dumpsArrTail xs ++ ']' :: rest) := by
  cases xs with
  | nil =>
    right
    exact ⟨']', rest, by rw [show dumpsArrTail [] = [] from rfl, List.nil_append],
      Or.inr (Or.inr rfl)⟩
  | cons x xs =>
    right
    refine ⟨',', ' ' :: dumpsV x ++ dumpsArrTail xs ++ ']' :: rest, ?_, Or.inl rfl⟩
    rw [show dumpsArrTail (x :: xs) = ',' :: ' ' :: dumpsV x ++ dumpsArrTail xs from rfl]
    simp

theorem not_startsWith_true {c : Char} (r : List Char) (h : ¬(c = 't')) :
    ¬(startsWithList "true".data (c :: r) = true) := by
  intro he
  rw [show ("true".data : List Char) = 't' :: ['r', 'u', 'e'] from rfl] at he
  rw [startsWith_ne_head _ _ fun hh => h hh.symm] at he
  exact Bool.noConfusion he

theorem not_startsWith_false {c : Char} (r : List Char) (h : ¬(c = 'f')) :
    ¬(startsWithList "false".data (c :: r) = true) := by
  intro he
  rw [show ("false".data : List Char) = 'f' :: ['a', 'l', 's', 'e'] from rfl] at he
  rw [startsWith_ne_head _ _ fun hh => h hh.symm] at he
  exact Bool.noConfusion he

theorem not_startsWith_null {c : Char} (r : List Char) (h : ¬(c = 'n')) :
    ¬(startsWithList "null".data (c :: r) = true) := by
  intro he
  rw [show ("null".data : List Char) = 'n' :: ['u', 'l', 'l'] from rfl] at he
  rw [startsWith_ne_head _ _ fun hh => h hh.symm] at he
  exact Bool.noConfusion he

theorem upsert_not_mem (acc : List (List Char × JsonValue)) (k : List Char) (v : JsonValue)
    (h : ¬(k ∈ acc.map Prod.fst)) : upsert acc k v = acc ++ [(k, v)] := by
  unfold upsert
  rw [if_neg]
  intro ha
  rw [List.any_eq_true] at ha
  obtain ⟨kv, hkv, hbe⟩ := ha
  exact h (List.mem_map.mpr ⟨kv, hkv, eq_of_beq hbe⟩)

theorem stepA_null (F : Nat) (rest : List Char) :
    parseVal (F + 1) (dumpsV .null ++ rest) = some (.null, rest) := rfl

theorem stepA_true (F : Nat) (rest : List Char) :
    parseVal (F + 1) (dumpsV (.bool true) ++ rest) = some (.bool true, rest) := rfl

theorem stepA_false (F : Nat) (rest : List Char) :
    parseVal (F + 1) (dumpsV (.bool false) ++ rest) = some (.bool false, rest) := rfl

theorem stepA_arrNil (F : Nat) (rest : List Char) :
    parseVal (F + 1) (dumpsV (.arr []) ++ rest) = some (.arr [], rest) := rfl

theorem stepA_objNil (F : Nat) (rest : List Char) :
    parseVal (F + 1) (dumpsV (.obj []) ++ rest) = some (.obj [], rest) := rfl

theorem stepA_str (F : Nat) (s rest : List Char) :
    parseVal (F + 1) (dumpsV (.str s) ++ rest) = some (.str s, rest) := by
  have heq : dumpsV (.str s) ++ rest = '"' :: (escStr s ++ '"' :: rest) := by
    rw [show dumpsV (.str s) = '"' :: (escStr s ++ ['"']) from rfl]
    simp [List.append_assoc]
  rw [heq, parseVal_cons, if_neg (by decide), if_neg (by decide), if_pos rfl,
    parseStr_escStr]
  rfl

theorem stepA_num (F : Nat) (n : JsonNumber) (rest : List Char) (hn : WfNum n)
    (hsafe : numSafe rest) :
    parseVal (F + 1) (dumpsV (.num n) ++ rest) = some (.num n, rest) := by
  obtain ⟨c, t, he, hc⟩ := numLit_head hn
  have h1 : ¬(c = '\x7b') := by
    rcases hc with rfl | hd
    · decide
    · exact ne_of_digit hd (by decide)
  have h2 : ¬(c = '[') := by
    rcases hc with rfl | hd
    · decide
    · exact ne_of_digit hd (by decide)
  have h3 : ¬(c = '"') := by
    rcases hc with rfl | hd
    · decide
    · exact ne_of_digit hd (by decide)
  have h4 : ¬(c = 't') := by
    rcases hc with rfl | hd
    · decide
    · exact ne_of_digit hd (by decide)
  have h5 : ¬(c = 'f') := by
    rcases hc with rfl | hd
    · decide
    · exact ne_of_digit hd (by decide)
  have h6 : ¬(c = 'n') := by
    rcases hc with rfl | hd
    · decide
    · exact ne_of_digit hd (by decide)
  rw [show dumpsV (.num n) = numLit n from rfl, he, List.cons_append, parseVal_cons,
    if_neg h1, if_neg h2, if_neg h3, if_neg (not_startsWith_true _ h4),
    if_neg (not_startsWith_false _ h5), if_neg (not_startsWith_null _ h6),
    ← List.cons_append, ← he, parseNum_numLit n hn rest hsafe]

theorem stepC (F : Nat)
    (ihA : ∀ v rest, Wf v → (dumpsV v).length < F → numSafe rest →
      parseVal F (dumpsV v ++ rest) = some (v, rest))
    (ihC : ∀ x xs acc rest, Wf x → (∀ y ∈ xs, Wf y) →
      (dumpsV x).length + (dumpsArrTail xs).length + 1 < F →
      parseElems F (dumpsV x ++ (dumpsArrTail xs ++ ']' :: rest)) acc
        = some (.arr (acc ++ x :: xs), rest))
    (x : JsonValue) (xs : List JsonValue) (acc : List JsonValue) (rest : List Char)
    (hwx : Wf x) (hwxs : ∀ y ∈ xs, Wf y)
    (hlen : (dumpsV x).length + (dumpsArrTail xs).length + 1 < F + 1) :
    parseElems (F + 1) (dumpsV x ++ (dumpsArrTail xs ++ ']' :: rest)) acc
      = some (.arr (acc ++ x :: xs), rest) := by
  rw [parseElems_succ,
    ihA x (dumpsArrTail xs ++ ']' :: rest) hwx (by omega) (numSafe_arrTail xs rest)]
  cases xs with
  | nil =>
    rw [show dumpsArrTail ([] : List JsonValue) = ([] : List Char) from rfl, List.nil_append]
    dsimp only
    rw [List.dropWhile_cons_of_neg (by decide)]
    rfl
  | cons y ys =>
    have hwy : Wf y := hwxs y (List.mem_cons_self ..)
    have hwys : ∀ z ∈ ys, Wf z := fun z hz => hwxs z (List.mem_cons_of_mem _ hz)
    have hlt : (dumpsArrTail (y :: ys)).length
        = 2 + (dumpsV y).length + (dumpsArrTail ys).length := by
      rw [show dumpsArrTail (y :: ys) = ',' :: ' ' :: dumpsV y ++ dumpsArrTail ys from rfl]
      simp [List.length_append]
      omega
    have hy1 : 1 ≤ (dumpsV x).length := dumpsV_length_pos x hwx
    have heq : dumpsArrTail (y :: ys) ++ ']' :: rest
        = ',' :: ' ' :: (dumpsV y ++ (dumpsArrTail ys ++ ']' :: rest)) := by
      rw [show dumpsArrTail (y :: ys) = ',' :: ' ' :: dumpsV y ++ dumpsArrTail ys from rfl]
      simp [List.append_assoc]
    rw [heq]
    dsimp only
    rw [List.dropWhile_cons_of_neg (by decide)]
    dsimp only
    rw [if_pos rfl, List.dropWhile_cons_of_pos (by decide), dropWhile_ws_dumps y hwy _,
      ihC y ys (acc ++ [x]) rest hwy hwys (by omega)]
    simp [List.append_assoc]

theorem stepB (F : Nat)
    (ihA : ∀ v rest, Wf v → (dumpsV v).length < F → numSafe rest →
      parseVal F (dumpsV v ++ rest) = some (v, rest))
    (ihB : ∀ k v ms acc rest, Wf v → (∀ kv ∈ ms, Wf kv.2) →
      ((acc ++ (k, v) :: ms).map Prod.fst).Nodup →
      (('"' :: escStr k ++ '"' :: ':' :: ' ' :: dumpsV v) ++ dumpsObjTail ms).length + 1 < F →
      parseMembers F (('"' :: escStr k ++ '"' :: ':' :: ' ' :: dumpsV v) ++
        (dumpsObjTail ms ++ '\x7d' :: rest)) acc = some (.obj (acc ++ (k, v) :: ms), rest))
    (k : List Char) (v : JsonValue) (ms : List (List Char × JsonValue))
    (acc : List (List Char × JsonValue)) (rest : List Char)
    (hwv : Wf v) (hwms : ∀ kv ∈ ms, Wf kv.2)
    (hnd : ((acc ++ (k, v) :: ms).map Prod.fst).Nodup)
    (hlen : (('"' :: escStr k ++ '"' :: ':' :: ' ' :: dumpsV v) ++
      dumpsObjTail ms).length + 1 < F + 1) :
    parseMembers (F + 1) (('"' :: escStr k ++ '"' :: ':' :: ' ' :: dumpsV v) ++
      (dumpsObjTail ms ++ '\x7d' :: rest)) acc = some (.obj (acc ++ (k, v) :: ms), rest) := by
  have hk : ¬(k ∈ acc.map Prod.fst) := by
    intro hkm
    rw [List.map_append, List.map_cons] at hnd
    exact (List.nodup_append.mp hnd).2.2 hkm (List.mem_cons_self ..)
  have hupk : upsert acc k v = acc ++ [(k, v)] := upsert_not_mem acc k v hk
  have hmemlen : (('"' :: escStr k ++ '"' :: ':' :: ' ' :: dumpsV v)).length
      = (escStr k).length + (dumpsV v).length + 4 := by
    simp only [List.length_append, List.length_cons]
    omega
  have heq : ('"' :: escStr k ++ '"' :: ':' :: ' ' :: dumpsV v) ++
      (dumpsObjTail ms ++ '\x7d' :: rest)
      = '"' :: (escStr k ++ '"' ::
          (':' :: ' ' :: (dumpsV v ++ (dumpsObjTail ms ++ '\x7d' :: rest)))) := by
    simp [List.append_assoc]
  rw [heq, parseMembers_cons, if_pos rfl, parseStr_escStr]
  dsimp only
  rw [List.dropWhile_cons_of_neg (by decide)]
  dsimp only
  rw [if_pos rfl, List.dropWhile_cons_of_pos (by decide), dropWhile_ws_dumps v hwv _,
    ihA v (dumpsObjTail ms ++ '\x7d' :: rest) hwv
      (by rw [List.length_append, hmemlen] at hlen; omega)
      (numSafe_objTail ms rest)]
  cases ms with
  | nil =>
    rw [show dumpsObjTail ([] : List (List Char × JsonValue)) = ([] : List Char) from rfl,
      List.nil_append]
    dsimp only
    rw [List.dropWhile_cons_of_neg (by decide)]
    dsimp only
    rw [if_neg (by decide), if_pos rfl, hupk]
  | cons kv2 ms2 =>
    obtain ⟨k2, v2⟩ := kv2
    have hwv2 : Wf v2 := hwms (k2, v2) (List.mem_cons_self ..)
    have hwms2 : ∀ kv ∈ ms2, Wf kv.2 := fun kv hkv => hwms kv (List.mem_cons_of_mem _ hkv)
    have hnd2 : (((acc ++ [(k, v)]) ++ (k2, v2) :: ms2).map Prod.fst).Nodup := by
      rw [show (acc ++ [(k, v)]) ++ (k2, v2) :: ms2 = acc ++ (k, v) :: (k2, v2) :: ms2 by
        simp]
      exact hnd
    have htl : (dumpsObjTail ((k2, v2) :: ms2)).length
        = (('"' :: escStr k2 ++ '"' :: ':' :: ' ' :: dumpsV v2) ++ dumpsObjTail ms2).length
          + 2 := by
      rw [show dumpsObjTail ((k2, v2) :: ms2)
          = ',' :: ' ' :: ('"' :: escStr k2 ++ '"' :: ':' :: ' ' :: dumpsV v2) ++
            dumpsObjTail ms2 from rfl]
      simp only [List.length_append, List.length_cons]
      omega
    have heq2 : dumpsObjTail ((k2, v2) :: ms2) ++ '\x7d' :: rest
        = ',' :: ' ' :: (('"' :: escStr k2 ++ '"' :: ':' :: ' ' :: dumpsV v2) ++
            (dumpsObjTail ms2 ++ '\x7d' :: rest)) := by
      rw [show dumpsObjTail ((k2, v2) :: ms2)
          = ',' :: ' ' :: ('"' :: escStr k2 ++ '"' :: ':' :: ' ' :: dumpsV v2) ++
            dumpsObjTail ms2 from rfl]
      simp [List.append_assoc]
    rw [heq2]
    dsimp only
    rw [List.dropWhile_cons_of_neg (by decide)]
    dsimp only
    rw [if_pos rfl, List.dropWhile_cons_of_pos (by decide), hupk]
    have hdw2 : ((('"' :: escStr k2 ++ '"' :: ':' :: ' ' :: dumpsV v2) ++
        (dumpsObjTail ms2 ++ '\x7d' :: rest)).dropWhile isJsonWs)
        = ('"' :: escStr k2 ++ '"' :: ':' :: ' ' :: dumpsV v2) ++
          (dumpsObjTail ms2 ++ '\x7d' :: rest) := by
      rw [show ('"' :: escStr k2 ++ '"' :: ':' :: ' ' :: dumpsV v2) ++
          (dumpsObjTail ms2 ++ '\x7d' :: rest)
          = '"' :: ((escStr k2 ++ '"' :: ':' :: ' ' :: dumpsV v2) ++
            (dumpsObjTail ms2 ++ '\x7d' :: rest)) by simp [List.append_assoc]]
      exact List.dropWhile_cons_of_neg (by decide)
    rw [hdw2, ihB k2 v2 ms2 (acc ++ [(k, v)]) rest hwv2 hwms2 hnd2
      (by rw [List.length_append] at hlen ⊢
          rw [List.length_append] at htl
          omega)]
    rw [show (acc ++ [(k, v)]) ++ (k2, v2) :: ms2 = acc ++ (k, v) :: (k2, v2) :: ms2 by simp]

theorem stepA_arrCons (F : Nat)
    (ihC : ∀ x xs acc rest, Wf x → (∀ y ∈ xs, Wf y) →
      (dumpsV x).length + (dumpsArrTail xs).length + 1 < F →
      parseElems F (dumpsV x ++ (dumpsArrTail xs ++ ']' :: rest)) acc
        = some (.arr (acc ++ x :: xs), rest))
    (x : JsonValue) (xs : List JsonValue) (rest : List Char)
    (hwx : Wf x) (hwxs : ∀ y ∈ xs, Wf y)
    (hlen : (dumpsV (.arr (x :: xs))).length < F + 1) :
    parseVal (F + 1) (dumpsV (.arr (x :: xs)) ++ rest) = some (.arr (x :: xs), rest) := by
  have hlen2 : (dumpsV (.arr (x :: xs))).length
      = (dumpsV x).length + (dumpsArrTail xs).length + 2 := by
    rw [show dumpsV (.arr (x :: xs)) = '[' :: dumpsV x ++ dumpsArrTail xs ++ [']'] from rfl]
    simp [List.length_append]
    omega
  have heq : dumpsV (.arr (x :: xs)) ++ rest
      = '[' :: (dumpsV x ++ (dumpsArrTail xs ++ ']' :: rest)) := by
    rw [show dumpsV (.arr (x :: xs)) = '[' :: dumpsV x ++ dumpsArrTail xs ++ [']'] from rfl]
    simp [List.append_assoc]
  obtain ⟨c, t, he, hsp⟩ := dumpsV_head_spec x hwx
  have hro : ¬((dumpsV x ++ (dumpsArrTail xs ++ ']' :: rest)).head? = some ']') := by
    rw [he, List.cons_append, List.head?_cons]
    intro hh
    exact (headSpec_props hsp).2.2.1 (Option.some.inj hh)
  rw [heq, parseVal_cons, if_neg (by decide), if_pos rfl,
    dropWhile_ws_dumps x hwx _, if_neg hro,
    ihC x xs [] rest hwx hwxs (by omega), List.nil_append]

theorem stepA_objCons (F : Nat)
    (ihB : ∀ k v ms acc rest, Wf v → (∀ kv ∈ ms, Wf kv.2) →
      ((acc ++ (k, v) :: ms).map Prod.fst).Nodup →
      (('"' :: escStr k ++ '"' :: ':' :: ' ' :: dumpsV v) ++ dumpsObjTail ms).length + 1 < F →
      parseMembers F (('"' :: escStr k ++ '"' :: ':' :: ' ' :: dumpsV v) ++
        (dumpsObjTail ms ++ '\x7d' :: rest)) acc = some (.obj (acc ++ (k, v) :: ms), rest))
    (k : List Char) (v : JsonValue) (ms : List (List Char × JsonValue)) (rest : List Char)
    (hwv : Wf v) (hwms : ∀ kv ∈ ms, Wf kv.2)
    (hnd : (((k, v) :: ms).map Prod.fst).Nodup)
    (hlen : (dumpsV (.obj ((k, v) :: ms))).length < F + 1) :
    parseVal (F + 1) (dumpsV (.obj ((k, v) :: ms)) ++ rest)
      = some (.obj ((k, v) :: ms), rest) := by
  have hlen2 : (dumpsV (.obj ((k, v) :: ms))).length
      = (('"' :: escStr k ++ '"' :: ':' :: ' ' :: dumpsV v) ++ dumpsObjTail ms).length
        + 2 := by
    rw [show dumpsV (.obj ((k, v) :: ms))
        = '\x7b' :: ('"' :: escStr k ++ '"' :: ':' :: ' ' :: dumpsV v) ++ dumpsObjTail ms ++
          ['\x7d'] from rfl]
    simp [List.length_append]
    omega
  have heq : dumpsV (.obj ((k, v) :: ms)) ++ rest
      = '\x7b' :: (('"' :: escStr k ++ '"' :: ':' :: ' ' :: dumpsV v) ++
          (dumpsObjTail ms ++ '\x7d' :: rest)) := by
    rw [show dumpsV (.obj ((k, v) :: ms))
        = '\x7b' :: ('"' :: escStr k ++ '"' :: ':' :: ' ' :: dumpsV v) ++ dumpsObjTail ms ++
          ['\x7d'] from rfl]
    simp [List.append_assoc]
  have hdw : ((('"' :: escStr k ++ '"' :: ':' :: ' ' :: dumpsV v) ++
      (dumpsObjTail ms ++ '\x7d' :: rest)).dropWhile isJsonWs)
      = ('"' :: escStr k ++ '"' :: ':' :: ' ' :: dumpsV v) ++
        (dumpsObjTail ms ++ '\x7d' :: rest) := by
    rw [show ('"' :: escStr k ++ '"' :: ':' :: ' ' :: dumpsV v) ++
        (dumpsObjTail ms ++ '\x7d' :: rest)
        = '"' :: ((escStr k ++ '"' :: ':' :: ' ' :: dumpsV v) ++
          (dumpsObjTail ms ++ '\x7d' :: rest)) by simp [List.append_assoc]]
    exact List.dropWhile_cons_of_neg (by decide)
  have hro : ¬((('"' :: escStr k ++ '"' :: ':' :: ' ' :: dumpsV v) ++
      (dumpsObjTail ms ++ '\x7d' :: rest)).head? = some '\x7d') := by
    rw [show ('"' :: escStr k ++ '"' :: ':' :: ' ' :: dumpsV v) ++
        (dumpsObjTail ms ++ '\x7d' :: rest)
        = '"' :: ((escStr k ++ '"' :: ':' :: ' ' :: dumpsV v) ++
          (dumpsObjTail ms ++ '\x7d' :: rest)) by simp [List.append_assoc],
      List.head?_cons]
    intro hh
    exact absurd (Option.some.inj hh) (by decide)
  rw [heq, parseVal_cons, if_pos rfl, hdw, if_neg hro,
    ihB k v ms [] rest hwv hwms (by rw [List.nil_append]; exact hnd) (by omega),
    List.nil_append]

theorem roundtripAux (F : Nat) :
    (∀ v rest, Wf v → (dumpsV v).length < F → numSafe rest →
      parseVal F (dumpsV v ++ rest) = some (v, rest)) ∧
    (∀ k v ms acc rest, Wf v → (∀ kv ∈ ms, Wf kv.2) →
      ((acc ++ (k, v) :: ms).map Prod.fst).Nodup →
      (('"' :: escStr k ++ '"' :: ':' :: ' ' :: dumpsV v) ++ dumpsObjTail ms).length + 1 < F →
      parseMembers F (('"' :: escStr k ++ '"' :: ':' :: ' ' :: dumpsV v) ++
        (dumpsObjTail ms ++ '\x7d' :: rest)) acc = some (.obj (acc ++ (k, v) :: ms), rest)) ∧
    (∀ x xs acc rest, Wf x → (∀ y ∈ xs, Wf y) →
      (dumpsV x).length + (dumpsArrTail xs).length + 1 < F →
      parseElems F (dumpsV x ++ (dumpsArrTail xs ++ ']' :: rest)) acc
        = some (.arr (acc ++ x :: xs), rest)) := by
  induction F with
  | zero =>
    refine ⟨fun v rest _ h _ => absurd h (by omega),
      fun k v ms acc rest _ _ _ h => absurd h (by omega),
      fun x xs acc rest _ _ h => absurd h (by omega)⟩
  | succ F ih =>
    obtain ⟨ihA, ihB, ihC⟩ := ih
    refine ⟨?_, fun k v ms acc rest hwv hwms hnd hlen =>
      stepB F ihA ihB k v ms acc rest hwv hwms hnd hlen,
      fun x xs acc rest hwx hwxs hlen =>
      stepC F ihA ihC x xs acc rest hwx hwxs hlen⟩
    intro v rest hw hlen hsafe
    cases v with
    | null => exact stepA_null F rest
    | bool b =>
      cases b with
      | true => exact stepA_true F rest
      | false => exact stepA_false F rest
    | num n =>
      have hn : WfNum n := by cases hw with | num _ h => exact h
      exact stepA_num F n rest hn hsafe
    | str s => exact stepA_str F s rest
    | arr xs =>
      cases xs with
      | nil => exact stepA_arrNil F rest
      | cons x xs =>
        have hwx : Wf x := by cases hw with | arr _ h => exact h x (List.mem_cons_self ..)
        have hwxs : ∀ y ∈ xs, Wf y := by
          cases hw with | arr _ h => exact fun y hy => h y (List.mem_cons_of_mem _ hy)
        exact stepA_arrCons F ihC x xs rest hwx hwxs hlen
    | obj ms =>
      cases ms with
      | nil => exact stepA_objNil F rest
      | cons kv ms =>
        obtain ⟨k, v⟩ := kv
        have hwv : Wf v := by
          cases hw with | obj _ _ h => exact h (k, v) (List.mem_cons_self ..)
        have hwms : ∀ kv ∈ ms, Wf kv.2 := by
          cases hw with | obj _ _ h => exact fun kv hkv => h kv (List.mem_cons_of_mem _ hkv)
        have hnd : (((k, v) :: ms).map Prod.fst).Nodup := by
          cases hw with | obj _ h _ => exact h
        exact stepA_objCons F ihB k v ms rest hwv hwms hnd hlen

/-- One value serialised by `dumpsV` decodes back to itself. -/
theorem json_loads_dumpsV (v : JsonValue) (hw : Wf v) : json_loads (dumpsV v) = some v := by
  unfold json_loads
  have hdw : (dumpsV v).dropWhile isJsonWs = dumpsV v := by
    have := dropWhile_ws_dumps v hw []
    rwa [List.append_nil] at this
  rw [hdw]
  obtain ⟨A, _, _⟩ := roundtripAux ((dumpsV v).length + 1)
  have := A v [] hw (by omega) (Or.inl rfl)
  rw [List.append_nil] at this
  rw [this]
  rfl

theorem mem_takeWhile_digit {c : Char} {l : List Char}
    (h : c ∈ l.takeWhile Char.isDigit) : c.isDigit = true :=
  List.mem_takeWhile_imp h

theorem scanIntPart_wf {cs1 ip r1 : List Char} (h : scanIntPart cs1 = some (ip, r1)) :
    ip ≠ [] ∧ (∀ c ∈ ip, c.isDigit = true) ∧ (ip.head? = some '0' → ip = ['0']) := by
  unfold scanIntPart at h
  cases cs1 with
  | nil => exact Option.noConfusion h
  | cons c r =>
    rw [List.head?_cons] at h
    dsimp only at h
    split_ifs at h with hd h0
    · injection h with h1
      injection h1 with h2 h3
      subst h2
      exact ⟨by decide, by decide, fun _ => rfl⟩
    · injection h with h1
      injection h1 with h2 h3
      subst h2
      rw [List.takeWhile_cons_of_pos hd]
      refine ⟨by simp, ?_, ?_⟩
      · intro x hx
        rcases List.mem_cons.mp hx with rfl | hx
        · exact hd
        · exact mem_takeWhile_digit hx
      · intro hh
        rw [List.head?_cons] at hh
        exact absurd (Option.some.inj hh) h0

theorem scanFrac_digits (r : List Char) : ∀ c ∈ (scanFrac r).1, c.isDigit = true := by
  intro c hc
  unfold scanFrac at hc
  by_cases h1 : r.head? = some '.'
  · rw [if_pos h1] at hc
    dsimp only at hc
    by_cases h2 : (List.takeWhile Char.isDigit r.tail).isEmpty = true
    · rw [if_pos h2] at hc
      dsimp only at hc
      exact absurd hc (by simp)
    · rw [if_neg h2] at hc
      dsimp only at hc
      exact mem_takeWhile_digit hc
  · rw [if_neg h1] at hc
    dsimp only at hc
    exact absurd hc (by simp)

theorem scanExp_wf (r : List Char) {sg : Option Bool} {ds : List Char}
    (h : (scanExp r).1 = some (sg, ds)) : ds ≠ [] ∧ ∀ c ∈ ds, c.isDigit = true := by
  unfold scanExp at h
  by_cases h1 : r.head? = some 'e' ∨ r.head? = some 'E'
  · rw [if_pos h1] at h
    dsimp only at h
    by_cases h2 : (List.takeWhile Char.isDigit
        (if r.tail.head? = some '+' ∨ r.tail.head? = some '-' then r.tail.tail
         else r.tail)).isEmpty = true
    · rw [if_pos h2] at h
      dsimp only at h
      exact Option.noConfusion h
    · rw [if_neg h2] at h
      dsimp only at h
      injection h with h3
      injection h3 with h4 h5
      subst h5
      exact ⟨by simpa [List.isEmpty_iff] using h2, fun c hc => mem_takeWhile_digit hc⟩
  · rw [if_neg h1] at h
    dsimp only at h
    exact Option.noConfusion h

theorem parseNum_wf {cs r : List Char} {v : JsonValue}
    (h : parseNum cs = some (v, r)) : Wf v := by
  unfold parseNum at h
  cases hs : scanIntPart (if cs.head? = some '-' then cs.tail else cs) with
  | none => rw [hs] at h; exact Option.noConfusion h
  | some p =>
    obtain ⟨ip, r1⟩ := p
    rw [hs] at h
    dsimp only at h
    injection h with h1
    injection h1 with h2 h3
    subst h2
    obtain ⟨hip, hipd, hip0⟩ := scanIntPart_wf hs
    refine Wf.num _ ⟨hip, hipd, hip0, scanFrac_digits r1, ?_⟩
    cases hep : (scanExp (scanFrac r1).2).1 with
    | none => exact trivial
    | some p2 =>
      obtain ⟨sg, ds⟩ := p2
      exact scanExp_wf _ hep

theorem upsert_nodup {ms : List (List Char × JsonValue)} (k : List Char) (v : JsonValue)
    (h : (ms.map Prod.fst).Nodup) : ((upsert ms k v).map Prod.fst).Nodup := by
  unfold upsert
  split_ifs with ha
  · have : (ms.map (fun kv => if kv.1 == k then (k, v) else kv)).map Prod.fst
        = ms.map Prod.fst := by
      rw [List.map_map]
      refine List.map_congr_left ?_
      intro kv _
      by_cases hb : (kv.1 == k) = true
      · simp only [Function.comp_apply, hb, if_true]
        exact (eq_of_beq hb).symm
      · simp only [Function.comp_apply]
        rw [if_neg hb]
    rw [this]
    exact h
  · rw [List.map_append]
    rw [List.nodup_append]
    refine ⟨h, List.nodup_singleton k, ?_⟩
    intro a hams hak
    simp only [List.map_cons, List.map_nil, List.mem_singleton] at hak
    subst hak
    obtain ⟨kv, hkv, hkve⟩ := List.mem_map.mp hams
    rw [List.any_eq_true] at ha
    push_neg at ha
    exact absurd (by rw [hkve]; exact beq_iff_eq.mpr rfl : (kv.1 == a) = true)
      (by simpa using ha kv hkv)

theorem upsert_wf {ms : List (List Char × JsonValue)} (k : List Char) {v : JsonValue}
    (hms : ∀ kv ∈ ms, Wf kv.2) (hv : Wf v) : ∀ kv ∈ upsert ms k v, Wf kv.2 := by
  unfold upsert
  split_ifs with ha
  · intro kv hkv
    obtain ⟨kv0, hkv0, hkv0e⟩ := List.mem_map.mp hkv
    by_cases hb : (kv0.1 == k) = true
    · rw [if_pos hb] at hkv0e
      rw [← hkv0e]
      exact hv
    · rw [if_neg hb] at hkv0e
      rw [← hkv0e]
      exact hms kv0 hkv0
  · intro kv hkv
    rcases List.mem_append.mp hkv with hkv | hkv
    · exact hms kv hkv
    · rw [List.mem_singleton] at hkv
      rw [hkv]
      exact hv

theorem some_pair_inj {v₀ v : JsonValue} {r₀ r : List Char}
    (h : (some (v₀, r₀) : Option (JsonValue × List Char)) = some (v, r)) : v = v₀ := by
  injection h with h1
  injection h1 with h2 h3
  exact h2.symm

theorem wf_append_single {acc : List JsonValue} {x : JsonValue}
    (ha : ∀ y ∈ acc, Wf y) (hx : Wf x) : ∀ y ∈ acc ++ [x], Wf y := by
  intro y hy
  rcases List.mem_append.mp hy with hy | hy
  · exact ha y hy
  · rw [List.mem_singleton] at hy
    rw [hy]
    exact hx

theorem wfAux (F : Nat) :
    (∀ cs v r, parseVal F cs = some (v, r) → Wf v) ∧
    (∀ cs acc v r, parseMembers F cs acc = some (v, r) →
      (acc.map Prod.fst).Nodup → (∀ kv ∈ acc, Wf kv.2) → Wf v) ∧
    (∀ cs acc v r, parseElems F cs acc = some (v, r) → (∀ x ∈ acc, Wf x) → Wf v) := by
  induction F with
  | zero =>
    refine ⟨fun cs v r h => ?_, fun cs acc v r h => ?_, fun cs acc v r h => ?_⟩
    · rw [show parseVal 0 cs = none from rfl] at h
      exact Option.noConfusion h
    · rw [show parseMembers 0 cs acc = none from rfl] at h
      exact fun _ _ => Option.noConfusion h
    · rw [show parseElems 0 cs acc = none from rfl] at h
      exact fun _ => Option.noConfusion h
  | succ F ih =>
    obtain ⟨ihA, ihB, ihC⟩ := ih
    refine ⟨?_, ?_, ?_⟩
    · intro cs v r h
      cases cs with
      | nil =>
        rw [show parseVal (F + 1) ([] : List Char) = none from rfl] at h
        exact Option.noConfusion h
      | cons c rest =>
        rw [parseVal_cons] at h
        split_ifs at h
        · rw [some_pair_inj h]
          exact Wf.obj [] (by simp) (by simp)
        · exact ihB _ _ _ _ h (by simp) (by simp)
        · rw [some_pair_inj h]
          exact Wf.arr [] (by simp)
        · exact ihC _ _ _ _ h (by simp)
        · cases hps : parseStr rest with
          | none => rw [hps] at h; exact Option.noConfusion h
          | some p =>
            rw [hps, Option.map_some'] at h
            rw [some_pair_inj h]
            exact Wf.str _
        · rw [some_pair_inj h]
          exact Wf.bool _
        · rw [some_pair_inj h]
          exact Wf.bool _
        · rw [some_pair_inj h]
          exact Wf.null
        · exact parseNum_wf h
    · intro cs acc v r h hnd hvals
      cases cs with
      | nil =>
        rw [show parseMembers (F + 1) ([] : List Char) acc = none from rfl] at h
        exact Option.noConfusion h
      | cons c rest =>
        rw [parseMembers_cons] at h
        by_cases hq : c = '"'
        · rw [if_pos hq] at h
          cases hps : parseStr rest with
          | none => rw [hps] at h; exact Option.noConfusion h
          | some p =>
            obtain ⟨k, r1⟩ := p
            rw [hps] at h
            dsimp only at h
            cases hd : r1.dropWhile isJsonWs with
            | nil => rw [hd] at h; exact Option.noConfusion h
            | cons c2 r2 =>
              rw [hd] at h
              dsimp only at h
              by_cases hc2 : c2 = ':'
              · rw [if_pos hc2] at h
                cases hpv : parseVal F (r2.dropWhile isJsonWs) with
                | none => rw [hpv] at h; exact Option.noConfusion h
                | some p2 =>
                  obtain ⟨v1, r3⟩ := p2
                  rw [hpv] at h
                  dsimp only at h
                  have hwv1 : Wf v1 := ihA _ _ _ hpv
                  cases hd3 : r3.dropWhile isJsonWs with
                  | nil => rw [hd3] at h; exact Option.noConfusion h
                  | cons c3 r4 =>
                    rw [hd3] at h
                    dsimp only at h
                    by_cases h1 : c3 = ','
                    · rw [if_pos h1] at h
                      exact ihB _ _ _ _ h (upsert_nodup k v1 hnd)
                        (upsert_wf k hvals hwv1)
                    · rw [if_neg h1] at h
                      by_cases h2 : c3 = '\x7d'
                      · rw [if_pos h2] at h
                        rw [some_pair_inj h]
                        exact Wf.obj _ (upsert_nodup k v1 hnd) (upsert_wf k hvals hwv1)
                      · rw [if_neg h2] at h
                        exact Option.noConfusion h
              · rw [if_neg hc2] at h
                exact Option.noConfusion h
        · rw [if_neg hq] at h
          exact Option.noConfusion h
    · intro cs acc v r h haccw
      rw [parseElems_succ] at h
      cases hpv : parseVal F cs with
      | none => rw [hpv] at h; exact Option.noConfusion h
      | some p =>
        obtain ⟨x, r2⟩ := p
        rw [hpv] at h
        dsimp only at h
        have hwx : Wf x := ihA _ _ _ hpv
        cases hd : r2.dropWhile isJsonWs with
        | nil => rw [hd] at h; exact Option.noConfusion h
        | cons c r3 =>
          rw [hd] at h
          dsimp only at h
          by_cases h1 : c = ','
          · rw [if_pos h1] at h
            exact ihC _ _ _ _ h (wf_append_single haccw hwx)
          · rw [if_neg h1] at h
            by_cases h2 : c = ']'
            · rw [if_pos h2] at h
              rw [some_pair_inj h]
              exact Wf.arr _ (wf_append_single haccw hwx)
            · rw [if_neg h2] at h
              exact Option.noConfusion h

theorem json_loads_wf {cs : List Char} {v : JsonValue} (h : json_loads cs = some v) :
    Wf v := by
  unfold json_loads at h
  cases hp : parseVal (cs.length + 1) (cs.dropWhile isJsonWs) with
  | none => rw [hp] at h; exact Option.noConfusion h
  | some p =>
    obtain ⟨v1, r⟩ := p
    rw [hp] at h
    dsimp only at h
    split_ifs at h
    · rw [← Option.some.inj h]
      exact (wfAux _).1 _ _ _ hp

theorem tryDecodeFix_wf {b : List Char} {v : JsonValue} (h : tryDecodeFix b = some v) :
    Wf v := by
  unfold tryDecodeFix at h
  cases h1 : json_loads b with
  | some w =>
    rw [h1] at h
    dsimp only at h
    rw [← Option.some.inj h]
    exact json_loads_wf h1
  | none =>
    rw [h1] at h
    dsimp only at h
    exact json_loads_wf h

theorem strat0_wf {raw : List Char} {v : JsonValue} (h : strat0 raw = some v) : Wf v := by
  unfold strat0 at h
  cases hs : pyStrip raw with
  | nil => rw [hs] at h; exact Option.noConfusion h
  | cons c rest =>
    rw [hs] at h
    dsimp only at h
    split_ifs at h with h1 h2
    · split at h
      · split_ifs at h with h3
        · exact tryDecodeFix_wf h
      · exact Option.noConfusion h
    · split at h
      · split_ifs at h with h3
        · exact tryDecodeFix_wf h
      · exact Option.noConfusion h

theorem strat2_wf {raw : List Char} {v : JsonValue} (h : strat2 raw = some v) : Wf v := by
  unfold strat2 at h
  have hmem : ∀ w ∈ (mdFindall raw).filterMap (fun blk => tryDecodeFix (pyStrip blk)),
      Wf w := by
    intro w hw
    obtain ⟨blk, _, hblk⟩ := List.mem_filterMap.mp hw
    exact tryDecodeFix_wf hblk
  cases hL : (mdFindall raw).filterMap (fun blk => tryDecodeFix (pyStrip blk)) with
  | nil => rw [hL] at h; exact Option.noConfusion h
  | cons v0 tl =>
    cases tl with
    | nil =>
      rw [hL] at h
      dsimp only at h
      rw [← Option.some.inj h]
      exact hmem v0 (by rw [hL]; exact List.mem_cons_self ..)
    | cons v1 tl2 =>
      rw [hL] at h
      dsimp only at h
      rw [← Option.some.inj h]
      exact Wf.arr _ (fun x hx => hmem x (by rw [hL]; exact hx))

theorem strat3_wf {raw : List Char} {v : JsonValue} (h : strat3 raw = some v) : Wf v := by
  unfold strat3 at h
  have hmem : ∀ w ∈ (extract_json_objects raw).filterMap tryDecodeFix, Wf w := by
    intro w hw
    obtain ⟨blk, _, hblk⟩ := List.mem_filterMap.mp hw
    exact tryDecodeFix_wf hblk
  cases hL : (extract_json_objects raw).filterMap tryDecodeFix with
  | nil => rw [hL] at h; exact Option.noConfusion h
  | cons v0 tl =>
    cases tl with
    | nil =>
      rw [hL] at h
      dsimp only at h
      rw [← Option.some.inj h]
      exact hmem v0 (by rw [hL]; exact List.mem_cons_self ..)
    | cons v1 tl2 =>
      rw [hL] at h
      dsimp only at h
      rw [← Option.some.inj h]
      exact Wf.arr _ (fun x hx => hmem x (by rw [hL]; exact hx))

/-- Every value `from_str` can return is producible by the decoder or is a
string. -/
theorem wf_from_str (input : List Char) : Wf (from_str input) := by
  unfold from_str
  split_ifs with h0
  · exact Wf.null
  · cases h1 : strat0 (pyStrip input) with
    | some w => exact strat0_wf h1
    | none =>
      dsimp only
      cases h2 : json_loads (pyStrip input) with
      | some w => exact json_loads_wf h2
      | none =>
        dsimp only
        cases h3 : strat2 (pyStrip input) with
        | some w => exact strat2_wf h3
        | none =>
          dsimp only
          cases h4 : strat3 (pyStrip input) with
          | some w => exact strat3_wf h4
          | none =>
            dsimp only
            cases h5 : json_loads (fix_malformed_json (pyStrip input)) with
            | some w => exact json_loads_wf h5
            | none => exact Wf.str _

theorem last_nonws_of_digits {ds : List Char} (h : ∀ c ∈ ds, c.isDigit = true)
    (hne : ds ≠ []) : ∃ t c, ds = t ++ [c] ∧ isPyWs c = false := by
  rcases List.eq_nil_or_concat ds with rfl | ⟨t, c, rfl⟩
  · exact absurd rfl hne
  · exact ⟨t, c, List.concat_eq_append .., isPyWs_digit (h c (by simp))⟩

theorem numLit_last {n : JsonNumber} (hn : WfNum n) :
    ∃ t c, numLit n = t ++ [c] ∧ isPyWs c = false := by
  obtain ⟨hip, hipd, _, hfpd, hep⟩ := hn
  cases hepc : n.ep with
  | some p =>
    obtain ⟨sg, ds⟩ := p
    rw [hepc] at hep
    obtain ⟨hne, hd⟩ := hep
    obtain ⟨t, c, hds, hws⟩ := last_nonws_of_digits hd hne
    refine ⟨(if n.neg then ['-'] else []) ++ n.ip ++ fpChars n.fp ++
      ('e' :: (expSign sg ++ t)), c, ?_, hws⟩
    rw [numLit, hepc]
    show _ ++ 'e' :: (expSign sg ++ ds) = _
    rw [show ds = t ++ [c] from hds]
    simp [List.append_assoc]
  | none =>
    cases hfpc : n.fp with
    | cons f0 ft =>
      obtain ⟨t, c, hds, hws⟩ :=
        last_nonws_of_digits (by rw [hfpc] at hfpd; exact hfpd) (by simp)
      refine ⟨(if n.neg then ['-'] else []) ++ n.ip ++ ('.' :: t), c, ?_, hws⟩
      rw [numLit, hepc, hfpc]
      show _ ++ fpChars (f0 :: ft) ++ ([] : List Char) = _
      rw [show fpChars (f0 :: ft) = '.' :: f0 :: ft from rfl, hds]
      simp [List.append_assoc]
    | nil =>
      obtain ⟨t, c, hds, hws⟩ :=
        last_nonws_of_digits hipd hip
      refine ⟨(if n.neg then ['-'] else []) ++ t, c, ?_, hws⟩
      rw [numLit, hepc, hds]
      show _ ++ fpChars n.fp ++ ([] : List Char) = _
      rw [hfpc]
      show _ ++ ([] : List Char) ++ ([] : List Char) = _
      simp [List.append_assoc]

/-- The serialised form of a decoder value ends in a non-whitespace character. -/
theorem dumpsV_last (v : JsonValue) (hw : Wf v) :
    ∃ t c, dumpsV v = t ++ [c] ∧ isPyWs c = false := by
  cases v with
  | null => exact ⟨['n', 'u', 'l'], 'l', rfl, by decide⟩
  | bool b =>
    cases b with
    | true => exact ⟨['t', 'r', 'u'], 'e', rfl, by decide⟩
    | false => exact ⟨['f', 'a', 'l', 's'], 'e', rfl, by decide⟩
  | num n =>
    have hn : WfNum n := by cases hw with | num _ h => exact h
    exact numLit_last hn
  | str s =>
    exact ⟨'"' :: escStr s, '"', (List.cons_append '"' (escStr s) ['"']).symm, by decide⟩
  | arr xs =>
    cases xs with
    | nil => exact ⟨['['], ']', rfl, by decide⟩
    | cons x xs =>
      refine ⟨'[' :: (dumpsV x ++ dumpsArrTail xs), ']', ?_, by decide⟩
      rw [show dumpsV (.arr (x :: xs)) = '[' :: dumpsV x ++ dumpsArrTail xs ++ [']']
        from rfl]
      simp [List.append_assoc]
  | obj ms =>
    cases ms with
    | nil => exact ⟨['\x7b'], '\x7d', rfl, by decide⟩
    | cons kv ms =>
      obtain ⟨k, v⟩ := kv
      refine ⟨'\x7b' :: (('"' :: escStr k ++ '"' :: ':' :: ' ' :: dumpsV v) ++
        dumpsObjTail ms), '\x7d', ?_, by decide⟩
      rw [show dumpsV (.obj ((k, v) :: ms))
          = '\x7b' :: ('"' :: escStr k ++ '"' :: ':' :: ' ' :: dumpsV v) ++
            dumpsObjTail ms ++ ['\x7d'] from rfl]
      simp [List.append_assoc]

/-- Serialised output carries no surrounding whitespace, so the dispatcher's
strip is the identity on it. -/
theorem pyStrip_dumps (v : JsonValue) (hw : Wf v) : pyStrip (dumpsV v) = dumpsV v := by
  obtain ⟨c, t, he, hsp⟩ := dumpsV_head_spec v hw
  obtain ⟨t2, c2, he2, hws2⟩ := dumpsV_last v hw
  unfold pyStrip
  have h1 : (dumpsV v).dropWhile isPyWs = dumpsV v := by
    rw [he]
    exact List.dropWhile_cons_of_neg (by simp [(headSpec_props hsp).2.1])
  rw [h1]
  have h2 : (dumpsV v).reverse.dropWhile isPyWs = (dumpsV v).reverse := by
    rw [he2, List.reverse_append]
    simp only [List.reverse_cons, List.reverse_nil, List.nil_append, List.singleton_append]
    exact List.dropWhile_cons_of_neg (by simp [hws2])
  rw [h2, List.reverse_reverse]

/-- A non-string decoder value never serialises to text starting with a quote
character. -/
theorem dumpsV_head_nonstr (v : JsonValue) (hw : Wf v) (hv : ∀ s, v ≠ .str s) :
    ∃ c t, dumpsV v = c :: t ∧ ¬(c = '"') ∧ ¬(c = '\x27') := by
  cases v with
  | str s => exact absurd rfl (hv s)
  | null => exact ⟨'n', _, rfl, by decide, by decide⟩
  | bool b =>
    cases b with
    | true => exact ⟨'t', _, rfl, by decide, by decide⟩
    | false => exact ⟨'f', _, rfl, by decide, by decide⟩
  | num n =>
    have hn : WfNum n := by cases hw with | num _ h => exact h
    obtain ⟨c, t, he, hc⟩ := numLit_head hn
    refine ⟨c, t, he, ?_, ?_⟩
    · rcases hc with rfl | hd
      · decide
      · exact ne_of_digit hd (by decide)
    · rcases hc with rfl | hd
      · decide
      · exact ne_of_digit hd (by decide)
  | arr xs =>
    cases xs with
    | nil => exact ⟨'[', _, rfl, by decide, by decide⟩
    | cons x xs => exact ⟨'[', _, rfl, by decide, by decide⟩
  | obj ms =>
    cases ms with
    | nil => exact ⟨'\x7b', _, rfl, by decide, by decide⟩
    | cons kv ms =>
      obtain ⟨k, v⟩ := kv
      exact ⟨'\x7b', _, rfl, by decide, by decide⟩

/-- Strategy 0 never fires on serialised non-string output: the payload is not
wrapped in quotes. -/
theorem strat0_dumps_none (v : JsonValue) (hw : Wf v) (hv : ∀ s, v ≠ .str s) :
    strat0 (dumpsV v) = none := by
  obtain ⟨c, t, he, hq1, hq2⟩ := dumpsV_head_nonstr v hw hv
  unfold strat0
  rw [pyStrip_dumps v hw, he]
  dsimp only
  rw [if_neg ?hcond]
  case hcond =>
    rintro ⟨-, -, hq⟩
    rcases hq with hq | hq
    · exact hq1 hq
    · exact hq2 hq

/-- C3. If `parse` returns a non-string structured value `v`, then `parse`
applied to the canonical serialisation of `v` returns `v` itself. -/
theorem from_str_roundtrip (x : List Char) (v : JsonValue)
    (hx : from_str x = v) (hv : ∀ s, v ≠ .str s) :
    from_str (dumpsV v) = v := by
  have hw : Wf v := hx ▸ wf_from_str x
  unfold from_str
  rw [pyStrip_dumps v hw]
  obtain ⟨c, t, he, _⟩ := dumpsV_head_spec v hw
  rw [if_neg (by rw [he]; simp)]
  rw [strat0_dumps_none v hw hv]
  dsimp only
  rw [json_loads_dumpsV v hw]

/-- Witness for C3 at a concrete parse: `{"a": 1}` decodes to a one-entry
mapping, and parsing its serialisation returns the same mapping. -/
theorem from_str_roundtrip_witness :
    from_str ("\x7b\"a\": 1\x7d".data)
      = .obj [("a".data, .num ⟨false, ['1'], [], none⟩)] ∧
    from_str (dumpsV (.obj [("a".data, .num ⟨false, ['1'], [], none⟩)]))
      = .obj [("a".data, .num ⟨false, ['1'], [], none⟩)] :=
  ⟨by rfl, from_str_roundtrip ("\x7b\"a\": 1\x7d".data) _ (by rfl)
    (fun s h => JsonValue.noConfusion h)⟩

/-! ## C5: donor-language literal normalization -/

/-- C5 (counterexample): donor-language literals occurring as array elements
are NOT rewritten; on `{"data": [None, True]}` the pipeline produces the input
string back (every decode fails), not the mapping with `data = [null, true]`
the claim describes. -/
theorem from_str_none_true_in_array :
    from_str ("\x7b\"data\": [None, True]\x7d".data) =
      .str ("\x7b\"data\": [None, True]\x7d".data) ∧
    from_str ("\x7b\"data\": [None, True]\x7d".data) ≠
      .obj [("data".data, .arr [.null, .bool true])] := by
  have e : from_str ("\x7b\"data\": [None, True]\x7d".data) =
      .str ("\x7b\"data\": [None, True]\x7d".data) := by rfl
  exact ⟨e, fun h => JsonValue.noConfusion (e ▸ h)⟩

/-- C5 (amended): the Grammar Repairer rewrites the donor-language literals
`True`/`False`/`None` (case-sensitively) into `true`/`false`/`null` only when
the bareword is the entire value immediately following a colon, as in
`{"ok": True, "flag": False, "data": None}`. -/
theorem from_str_python_literals_value_position :
    from_str ("\x7b\"ok\": True, \"flag\": False, \"data\": None\x7d".data) =
      .obj [("ok".data, .bool true), ("flag".data, .bool false), ("data".data, .null)] := by
  rfl

/-! ## C6: truncated input is auto-closed -/

/-- C6: on the truncated input `{"a":[{"x":1}, {"y":2}` the extractor emits the
trailing unterminated span as a best-effort candidate and the repairer appends
the missing closers, so `from_str` returns the mapping
`{"a": [{"x": 1}, {"y": 2}]}`. -/
theorem from_str_truncated_autoclosed :
    from_str ("\x7b\"a\":[\x7b\"x\":1\x7d, \x7b\"y\":2\x7d".data) =
      .obj [("a".data, .arr
        [.obj [("x".data, .num ⟨false, "1".data, [], none⟩)],
         .obj [("y".data, .num ⟨false, "2".data, [], none⟩)]])] := by
  rfl

/-! ## C7: expression-like values become strings, numbers stay numbers -/

/-- C7: on `{"numerator": 314.97 + 1.32, "denominator": 15.152}` the value of
`numerator` is the string `"314.97 + 1.32"` (never arithmetically evaluated)
and the value of `denominator` is the number `15.152`. -/
theorem from_str_expression_value_quoted :
    from_str ("\x7b\"numerator\": 314.97 + 1.32, \"denominator\": 15.152\x7d".data) =
      .obj [("numerator".data, .str "314.97 + 1.32".data),
            ("denominator".data, .num ⟨false, "15".data, "152".data, none⟩)] := by
  rfl

/-! ## C8: uppercase barewords become strings, not booleans -/

/-- C8: on `{"active": TRUE, "off": FALSE}` the uppercase barewords are quoted
as the strings `"TRUE"` and `"FALSE"`, never converted to booleans. -/
theorem from_str_uppercase_barewords :
    from_str ("\x7b\"active\": TRUE, \"off\": FALSE\x7d".data) =
      .obj [("active".data, .str "TRUE".data), ("off".data, .str "FALSE".data)] := by
  rfl

/-! ## C9: escaped single quote inside a single-quoted literal -/

/-- C9 (the code's behaviour at the failing input): on `{'a': 'it\'s'}` the
quote-normalization pass keeps the backslash (`_convert_single` only re-escapes
double quotes, it does not unescape `\'`), producing `{"a": "it\'s"}` which
strict JSON rejects, so every strategy fails and `from_str` returns the
original string — not the mapping `{"a": "it's"}` required by the
specification. -/
theorem from_str_escaped_single_quote :
    from_str ("\x7b\x27a\x27: \x27it\\\x27s\x27\x7d".data) =
      .str ("\x7b\x27a\x27: \x27it\\\x27s\x27\x7d".data) ∧
    fix_malformed_json ("\x7b\x27a\x27: \x27it\\\x27s\x27\x7d".data) =
      "\x7b\"a\": \"it\\\x27s\"\x7d".data := by
  exact ⟨by rfl, by rfl⟩

/-! ## C10: URL values survive the comment-stripping pass -/

/-- C10: a `//` immediately preceded by `:` is not treated as a line comment,
so on `{"url": https://example.com, "email": test@example.com}` the URL
survives repair and both bareword values are quoted into strings. -/
theorem from_str_url_email :
    from_str ("\x7b\"url\": https://example.com, \"email\": test@example.com\x7d".data) =
      .obj [("url".data, .str "https://example.com".data),
            ("email".data, .str "test@example.com".data)] := by
  rfl

end RepairParser
